import Mathlib

/-!
Shallow embedding of hookedup.py: a Python list subclass (hookedup.List)
whose mutating operations consult pre- and post- hook callbacks, with the
Abort exception acting as a veto signal, plus the attribute guard
PreventHookedupOverwriteReset.

Hooks are modelled as pure callbacks that observe the current list contents
(Python hooks receive self) and the event arguments, and either return
normally, raise Abort, or raise some other exception.  Python in-place
mutation is not rolled back by an escaping exception, so every operation
returns its final list contents and abort statistics in both the normal and
the exceptional outcome.
-/

namespace Hookedup

/-- The six hook event names recognized by hookedup.List. -/
inductive HookName
  | pre_add
  | post_add
  | pre_remove
  | post_remove
  | pre_replace
  | post_replace
deriving DecidableEq

/-- What a hook callback does when invoked: return normally, raise the
Abort signal, or raise some other exception. -/
inductive HookBehavior
  | ret
  | abort
  | err
deriving DecidableEq

/-- Abort statistics: the _abort_stats defaultdict, one counter per hook
name (only pre-hook names are ever bumped by the implementation). -/
structure Ctrs where
  pre_add : Nat
  post_add : Nat
  pre_remove : Nat
  post_remove : Nat
  pre_replace : Nat
  post_replace : Nat
deriving DecidableEq

/-- The all-zero counters of a freshly constructed list. -/
def Ctrs.zero : Ctrs := ⟨0, 0, 0, 0, 0, 0⟩

/-- Read the counter of one hook name. -/
def Ctrs.get (c : Ctrs) : HookName → Nat
  | .pre_add => c.pre_add
  | .post_add => c.post_add
  | .pre_remove => c.pre_remove
  | .post_remove => c.post_remove
  | .pre_replace => c.pre_replace
  | .post_replace => c.post_replace

/-- Increment the counter of one hook name. -/
def Ctrs.bump (c : Ctrs) : HookName → Ctrs
  | .pre_add => { c with pre_add := c.pre_add + 1 }
  | .post_add => { c with post_add := c.post_add + 1 }
  | .pre_remove => { c with pre_remove := c.pre_remove + 1 }
  | .post_remove => { c with post_remove := c.post_remove + 1 }
  | .pre_replace => { c with pre_replace := c.pre_replace + 1 }
  | .post_replace => { c with post_replace := c.post_replace + 1 }

/-- Iterated counter bump. -/
def Ctrs.bumpN (c : Ctrs) (n : HookName) : Nat → Ctrs
  | 0 => c
  | k + 1 => (c.bumpN n k).bump n

/-- Python exceptions that can escape the operations of hookedup.List.
hookError stands for an arbitrary non-Abort exception raised inside a hook
callback; abortExc is the Abort exception itself escaping uncaught.
Messages that in Python interpolate a quoted type name are carried here
without the quote characters. -/
inductive PyExc
  | indexError (msg : String)
  | valueError (msg : String)
  | typeError (msg : String)
  | attributeError (msg : String)
  | abortExc
  | hookError
deriving DecidableEq

/-- The hook table self._hook: an optional callback per event name (absent
entries behave as the defaultdict no-op). -/
def Hooks (α : Type) : Type := HookName → Option (List α → List α → HookBehavior)

/-- Result of a mutating operation: both outcomes carry the final list
contents and abort statistics, because an escaping Python exception does
not undo in-place mutation already performed. -/
inductive PyRes (α : Type) (ρ : Type)
  | ok (r : ρ) (items : List α) (ctrs : Ctrs)
  | err (e : PyExc) (items : List α) (ctrs : Ctrs)
deriving DecidableEq

/-- One-shot wrap of a negative Python index by the container length. -/
def pyWrapIdx (len : Nat) (i : Int) : Int :=
  if i < 0 then i + (len : Int) else i

/-- Python list item read for an integer index: a negative index wraps once
by the length; out of range raises IndexError. -/
def pyGetItem {α : Type} (l : List α) (i : Int) : Except PyExc α :=
  if 0 ≤ pyWrapIdx l.length i ∧ pyWrapIdx l.length i < (l.length : Int) then
    match l.get? (pyWrapIdx l.length i).toNat with
    | some x => .ok x
    | none => .error (.indexError "list index out of range")
  else
    .error (.indexError "list index out of range")

/-- Python list item write for an integer index. -/
def pySetItem {α : Type} (l : List α) (i : Int) (x : α) : Except PyExc (List α) :=
  if 0 ≤ pyWrapIdx l.length i ∧ pyWrapIdx l.length i < (l.length : Int) then
    .ok (l.set (pyWrapIdx l.length i).toNat x)
  else
    .error (.indexError "list assignment index out of range")

/-- Python list item deletion for an integer index. -/
def pyDelItem {α : Type} (l : List α) (i : Int) : Except PyExc (List α) :=
  if 0 ≤ pyWrapIdx l.length i ∧ pyWrapIdx l.length i < (l.length : Int) then
    .ok (l.eraseIdx (pyWrapIdx l.length i).toNat)
  else
    .error (.indexError "list assignment index out of range")

/-- Python list.insert position clamping: a negative index wraps once, then
the position is clamped into the closed range from 0 to the length. -/
def pyInsertIdx (len : Nat) (i : Int) : Nat :=
  if pyWrapIdx len i < 0 then 0 else min (pyWrapIdx len i).toNat len

/-- Native list.insert: splice one element in at the clamped position. -/
def pyInsert {α : Type} (l : List α) (i : Int) (x : α) : List α :=
  let k := pyInsertIdx l.length i
  l.take k ++ x :: l.drop k

/-- List._verify_index_bounds: raise IndexError (message built from
fxn_name) when the integer index is out of range for the current length. -/
def verify_index_bounds (length : Nat) (index : Int) (fxn_name : String) : Except PyExc Unit :=
  if length = 0 ∨ (length : Int) ≤ index ∨ index < -(length : Int) then
    .error (.indexError (fxn_name ++ " index out of range"))
  else
    .ok ()

/-- A Python slice object: each of start, stop, step may be None. -/
structure PySlice where
  start : Option Int
  stop : Option Int
  step : Option Int
deriving DecidableEq

/-- Number of indices of range(start, stop, step) for a nonzero step
(ceiling formula computed on naturals). -/
def sliceCount (start stop step : Int) : Nat :=
  if 0 < step then
    ((stop - start).toNat + (step.toNat - 1)) / step.toNat
  else
    ((start - stop).toNat + ((-step).toNat - 1)) / (-step).toNat

/-- The indices of range(start, stop, step), produced by stepping. -/
def sliceIdxAux (step : Int) : Nat → Int → List Int
  | 0, _ => []
  | n + 1, start => start :: sliceIdxAux step n (start + step)

/-- The index list a slice denotes after normalization. -/
def sliceIdxList (start stop step : Int) : List Int :=
  sliceIdxAux step (sliceCount start stop step) start

/-- slice.indices(length): CPython normalization of start, stop and step
against a container length; a zero step raises ValueError. -/
def sliceIndices (sl : PySlice) (length : Nat) : Except PyExc (Int × Int × Int) :=
  let step := sl.step.getD 1
  if step = 0 then
    .error (.valueError "slice step cannot be zero")
  else
    let lower : Int := if step < 0 then -1 else 0
    let upper : Int := if step < 0 then (length : Int) - 1 else (length : Int)
    let start :=
      match sl.start with
      | none => if step < 0 then upper else lower
      | some s => if s < 0 then max (s + (length : Int)) lower else min s upper
    let stop :=
      match sl.stop with
      | none => if step < 0 then lower else upper
      | some s => if s < 0 then max (s + (length : Int)) lower else min s upper
    .ok (start, stop, step)

/-- Python slice read: the sub-list selected by the normalized indices. -/
def pyGetSlice {α : Type} (l : List α) (sl : PySlice) : Except PyExc (List α) :=
  match sliceIndices sl l.length with
  | .error e => .error e
  | .ok (start, stop, step) =>
      .ok ((sliceIdxList start stop step).filterMap (fun i => l.get? i.toNat))

/-- The expression islice.step or 1 (Python or maps both None and 0 to 1). -/
def stepOr1 (sl : PySlice) : Int :=
  match sl.step with
  | none => 1
  | some s => if s = 0 then 1 else s

/-- Python list.remove deletion: drop the first occurrence. -/
def eraseFirst {α : Type} [DecidableEq α] : List α → α → List α
  | [], _ => []
  | x :: xs, a => if x = a then xs else x :: eraseFirst xs a

/-- List._hook_fxn_aborts: run the named hook and report whether it raised
Abort; an Abort bumps that abort counter, any other exception escapes. -/
def hook_fxn_aborts {α : Type} (h : Hooks α) (name : HookName) (args : List α)
    (items : List α) (ctrs : Ctrs) : PyRes α Bool :=
  match h name with
  | none => .ok false items ctrs
  | some f =>
      match f items args with
      | .ret => .ok false items ctrs
      | .abort => .ok true items (ctrs.bump name)
      | .err => .err .hookError items ctrs

/-- List._call_post_hook_fxn: run the named hook for side effect; nothing
is caught there, so an Abort or any other exception raised escapes. -/
def call_post_hook_fxn {α : Type} (h : Hooks α) (name : HookName) (args : List α)
    (items : List α) (ctrs : Ctrs) : PyRes α Unit :=
  match h name with
  | none => .ok () items ctrs
  | some f =>
      match f items args with
      | .ret => .ok () items ctrs
      | .abort => .err .abortExc items ctrs
      | .err => .err .hookError items ctrs

/-- List.append: append the item unless pre_add aborts; after a successful
append fire post_add. -/
def append {α : Type} (h : Hooks α) (item : α) (items : List α) (ctrs : Ctrs) : PyRes α Unit :=
  match hook_fxn_aborts h .pre_add [item] items ctrs with
  | .err e it c => .err e it c
  | .ok true it c => .ok () it c
  | .ok false it c => call_post_hook_fxn h .post_add [item] (it ++ [item]) c

/-- List.insert exactly as written in the source: the test on the pre_add
hook is inverted, so the item is inserted (and post_add fired) precisely
when pre_add raises Abort, and nothing happens when it proceeds. -/
def insert {α : Type} (h : Hooks α) (index : Int) (item : α) (items : List α) (ctrs : Ctrs) : PyRes α Unit :=
  match hook_fxn_aborts h .pre_add [item] items ctrs with
  | .err e it c => .err e it c
  | .ok true it c => call_post_hook_fxn h .post_add [item] (pyInsert it index item) c
  | .ok false it c => .ok () it c

/-- List.pop: validate the index (message disambiguated by pop), read the
item, consult pre_remove; on Abort return the item without removing it,
otherwise remove it, fire post_remove, and return it. -/
def pop {α : Type} (h : Hooks α) (index : Int) (items : List α) (ctrs : Ctrs) : PyRes α α :=
  match verify_index_bounds items.length index "pop" with
  | .error e => .err e items ctrs
  | .ok _ =>
      match pyGetItem items index with
      | .error e => .err e items ctrs
      | .ok item =>
          match hook_fxn_aborts h .pre_remove [item] items ctrs with
          | .err e it c => .err e it c
          | .ok true it c => .ok item it c
          | .ok false it c =>
              match pyDelItem it index with
              | .error e => .err e it c
              | .ok it2 =>
                  match call_post_hook_fxn h .post_remove [item] it2 c with
                  | .err e it3 c3 => .err e it3 c3
                  | .ok _ it3 c3 => .ok item it3 c3

/-- List.remove: ValueError when the item is absent (checked before any
hook fires); otherwise the pre/remove/post protocol on the first
occurrence. -/
def remove {α : Type} [DecidableEq α] (h : Hooks α) (item : α) (items : List α) (ctrs : Ctrs) : PyRes α Unit :=
  if item ∈ items then
    match hook_fxn_aborts h .pre_remove [item] items ctrs with
    | .err e it c => .err e it c
    | .ok true it c => .ok () it c
    | .ok false it c => call_post_hook_fxn h .post_remove [item] (eraseFirst it item) c
  else
    .err (.valueError "list.remove(x): x not in list") items ctrs

/-- Loop of List.clear: walk an index from 0; each item whose pre_remove
does not abort is deleted in place (then post_remove fires), a vetoed item
stays and the index advances past it.  Hook invocations cannot change the
list contents in this embedding, so the recursion passes items through
explicitly. -/
def clearAux {α : Type} (h : Hooks α) : Nat → List α → Ctrs → Nat → PyRes α Unit
  | 0, items, ctrs, _ => .ok () items ctrs
  | fuel + 1, items, ctrs, i =>
    if hlt : i < items.length then
      match hook_fxn_aborts h .pre_remove [items.get ⟨i, hlt⟩] items ctrs with
      | .err e it c => .err e it c
      | .ok true _ c => clearAux h fuel items c (i + 1)
      | .ok false _ c =>
          match call_post_hook_fxn h .post_remove [items.get ⟨i, hlt⟩] (items.eraseIdx i) c with
          | .err e it3 c3 => .err e it3 c3
          | .ok _ _ c3 => clearAux h fuel (items.eraseIdx i) c3 i
    else
      .ok () items ctrs

/-- List.clear: remove items individually starting at index 0.  The loop
is driven by fuel equal to the loop measure (current length minus index):
each iteration either removes the item at i, which lowers the length by
one, or advances i past a vetoed item, so the measure falls by exactly one
per iteration and the while condition i < length fails exactly when the
measure reaches zero. -/
def clear {α : Type} (h : Hooks α) (items : List α) (ctrs : Ctrs) : PyRes α Unit :=
  clearAux h items.length items ctrs 0

/-- Iterative part of List.extend: append each item in turn, so the pre and
post add hooks fire per item and a veto only skips that item. -/
def extendList {α : Type} (h : Hooks α) : List α → List α → Ctrs → PyRes α Unit
  | [], items, ctrs => .ok () items ctrs
  | x :: rest, items, ctrs =>
      match append h x items ctrs with
      | .err e it c => .err e it c
      | .ok _ it c => extendList h rest it c

/-- Argument of List.extend: an iterable yielding finitely many items, or a
non-iterable value carrying its type name for the error message. -/
inductive PyIter (α : Type)
  | iter (xs : List α)
  | notIter (typeName : String)

/-- List.extend: TypeError for a non-iterable argument, raised before any
hook or mutation; otherwise append the items one at a time. -/
def extend {α : Type} (h : Hooks α) (arg : PyIter α) (items : List α) (ctrs : Ctrs) : PyRes α Unit :=
  match arg with
  | .notIter t => .err (.typeError (t ++ " object is not iterable")) items ctrs
  | .iter xs => extendList h xs items ctrs

/-- Multiplier argument of List.__imul__: an integer or a value of some
other type. -/
inductive PyMulArg
  | int (n : Int)
  | notInt (typeName : String)

/-- Return marker of List.__imul__: the list object itself, or the Python
None that clear() returns. -/
inductive ImulRet
  | selfList
  | noneVal
deriving DecidableEq

/-- Loop of List.__imul__: extend with the snapshot (multiplier - 1)
times. -/
def imulLoop {α : Type} (h : Hooks α) (original : List α) : Nat → List α → Ctrs → PyRes α Unit
  | 0, items, ctrs => .ok () items ctrs
  | k + 1, items, ctrs =>
      match extendList h original items ctrs with
      | .err e it c => .err e it c
      | .ok _ it c => imulLoop h original k it c

/-- List.__imul__: TypeError for a non-integer multiplier (the missing
space before the word object is in the source); for a multiplier at most 0
it returns the result of clear(), which is None; otherwise it snapshots the
current items, extends with the snapshot (multiplier - 1) times, and
returns self. -/
def imul {α : Type} (h : Hooks α) (m : PyMulArg) (items : List α) (ctrs : Ctrs) : PyRes α ImulRet :=
  match m with
  | .notInt t => .err (.typeError (t ++ "object cannot be interpreted as an integer")) items ctrs
  | .int n =>
      if n ≤ 0 then
        match clear h items ctrs with
        | .err e it c => .err e it c
        | .ok _ it c => .ok .noneVal it c
      else
        match imulLoop h items (n - 1).toNat items ctrs with
        | .err e it c => .err e it c
        | .ok _ it c => .ok .selfList it c

/-- Integer branch of List.__setitem__: bounds check, then the pre_replace
/ replace / post_replace protocol (the hooks receive old and new value). -/
def setitemInt {α : Type} (h : Hooks α) (index : Int) (repl : α) (items : List α) (ctrs : Ctrs) : PyRes α Unit :=
  match verify_index_bounds items.length index "list assignment" with
  | .error e => .err e items ctrs
  | .ok _ =>
      match pyGetItem items index with
      | .error e => .err e items ctrs
      | .ok item =>
          match hook_fxn_aborts h .pre_replace [item, repl] items ctrs with
          | .err e it c => .err e it c
          | .ok true it c => .ok () it c
          | .ok false it c =>
              match pySetItem it index repl with
              | .error e => .err e it c
              | .ok it2 => call_post_hook_fxn h .post_replace [item, repl] it2 c

/-- Integer branch of List.__delitem__: bounds check, then the pre_remove /
delete / post_remove protocol. -/
def delitemInt {α : Type} (h : Hooks α) (index : Int) (items : List α) (ctrs : Ctrs) : PyRes α Unit :=
  match verify_index_bounds items.length index "list assignment" with
  | .error e => .err e items ctrs
  | .ok _ =>
      match pyGetItem items index with
      | .error e => .err e items ctrs
      | .ok item =>
          match hook_fxn_aborts h .pre_remove [item] items ctrs with
          | .err e it c => .err e it c
          | .ok true it c => .ok () it c
          | .ok false it c =>
              match pyDelItem it index with
              | .error e => .err e it c
              | .ok it2 => call_post_hook_fxn h .post_remove [item] it2 c

/-- List._verify_slices_are_valid: an extended slice (explicit step other
than 1) must pair equal-length slice and replacement; a zero step is
rejected.  (The non-slice TypeError branch of the source is dead there and
lives in the dispatcher here.) -/
def verify_slices_are_valid {α : Type} (sl : PySlice) (list_slice replacement : List α) : Except PyExc Unit :=
  match sl.step with
  | none => .ok ()
  | some st =>
      if st = 1 then .ok ()
      else if st = 0 then .error (.valueError "slice step cannot be zero")
      else if list_slice.length ≠ replacement.length then
        .error (.valueError ("attempt to assign sequence of size " ++ toString replacement.length
          ++ " to extended slice of size " ++ toString list_slice.length))
      else .ok ()

/-- List._replace_corresponding_items_in_both_slices: while the index list,
the selected slice and the replacement all still have elements, replace
through the integer __setitem__ path; returns the index just past the last
replacement (or the normalized start when nothing was replaced). -/
def replace_corresponding {α : Type} (h : Hooks α) : List Int → List α → List α → List α → Ctrs → Int → PyRes α Int
  | i :: idxs, _ :: ls, r :: rs, items, ctrs, _ =>
      (match setitemInt h i r items ctrs with
      | .err e it c => .err e it c
      | .ok _ it c => replace_corresponding h idxs ls rs it c (i + 1))
  | _, _, _, items, ctrs, i0 => .ok i0 items ctrs

/-- List._remove_remaining_items_in_list_slice: attempt overflow removals
starting at index i; a veto advances i by step, a removal compensates a
positive step by step - 1 and a negative step not at all. -/
def remove_remaining {α : Type} (h : Hooks α) (step : Int) : Nat → Int → List α → Ctrs → PyRes α Unit
  | 0, _, items, ctrs => .ok () items ctrs
  | n + 1, i, items, ctrs =>
      match pyGetItem items i with
      | .error e => .err e items ctrs
      | .ok item =>
          match hook_fxn_aborts h .pre_remove [item] items ctrs with
          | .err e it c => .err e it c
          | .ok true it c => remove_remaining h step n (i + step) it c
          | .ok false it c =>
              match pyDelItem it i with
              | .error e => .err e it c
              | .ok it2 =>
                  match call_post_hook_fxn h .post_remove [item] it2 c with
                  | .err e it3 c3 => .err e it3 c3
                  | .ok _ it3 c3 =>
                      if 0 < step then remove_remaining h step n (i + step - 1) it3 c3
                      else remove_remaining h step n (i + step) it3 c3

/-- List._add_remaining_items_in_replacement_slice: insert the remaining
replacement items, read from the back of the replacement through negative
indices, advancing the insertion point past each successful insert. -/
def add_remaining {α : Type} (h : Hooks α) (replacement : List α) : List Int → Int → List α → Ctrs → PyRes α Unit
  | [], _, items, ctrs => .ok () items ctrs
  | ri :: rest, i, items, ctrs =>
      match pyGetItem replacement ri with
      | .error e => .err e items ctrs
      | .ok item =>
          match hook_fxn_aborts h .pre_add [item] items ctrs with
          | .err e it c => .err e it c
          | .ok true it c => add_remaining h replacement rest i it c
          | .ok false it c =>
              match call_post_hook_fxn h .post_add [item] (pyInsert it i item) c with
              | .err e it3 c3 => .err e it3 c3
              | .ok _ it3 c3 => add_remaining h replacement rest (i + 1) it3 c3

/-- Slice branch of List.__setitem__: materialize the slice, validate the
shape, pairwise-replace, then remove the overflow or insert the
remainder. -/
def setitemSlice {α : Type} (h : Hooks α) (sl : PySlice) (replacement : List α) (items : List α) (ctrs : Ctrs) : PyRes α Unit :=
  match pyGetSlice items sl with
  | .error e => .err e items ctrs
  | .ok list_slice =>
      match verify_slices_are_valid sl list_slice replacement with
      | .error e => .err e items ctrs
      | .ok _ =>
          match sliceIndices sl items.length with
          | .error e => .err e items ctrs
          | .ok (start, stop, step) =>
              match replace_corresponding h (sliceIdxList start stop step) list_slice replacement items ctrs start with
              | .err e it c => .err e it c
              | .ok last_index it c =>
                  let overflow : Int := (list_slice.length : Int) - (replacement.length : Int)
                  if 0 < overflow then
                    remove_remaining h (stepOr1 sl) overflow.toNat last_index it c
                  else if overflow < 0 then
                    add_remaining h replacement (sliceIdxList overflow 0 1) last_index it c
                  else
                    .ok () it c

/-- Slice branch of List.__delitem__: like slice assignment with an empty
replacement, then remove every selected element (subject to per-item
veto). -/
def delitemSlice {α : Type} (h : Hooks α) (sl : PySlice) (items : List α) (ctrs : Ctrs) : PyRes α Unit :=
  match pyGetSlice items sl with
  | .error e => .err e items ctrs
  | .ok list_slice =>
      match sliceIndices sl items.length with
      | .error e => .err e items ctrs
      | .ok (start, stop, step) =>
          match replace_corresponding h (sliceIdxList start stop step) list_slice [] items ctrs start with
          | .err e it c => .err e it c
          | .ok last_index it c =>
              remove_remaining h (stepOr1 sl) list_slice.length last_index it c

/-- An index as passed to __setitem__ or __delitem__: an integer, a slice,
or a value of some other type (whose name feeds the native TypeError). -/
inductive PyIx
  | int (i : Int)
  | slc (s : PySlice)
  | other (typeName : String)

/-- List.__delitem__ dispatch: integer path, slice path, or the native
TypeError that the slice read raises for any other index type. -/
def delitem {α : Type} (h : Hooks α) (ix : PyIx) (items : List α) (ctrs : Ctrs) : PyRes α Unit :=
  match ix with
  | .int i => delitemInt h i items ctrs
  | .slc sl => delitemSlice h sl items ctrs
  | .other t => .err (.typeError ("list indices must be integers or slices, not " ++ t)) items ctrs

/-- A Python object reference for the attribute guard: an identity plus
whether the object is a hookedup.List instance. -/
structure PyVal where
  id : Nat
  isHookedList : Bool
deriving DecidableEq

/-- PreventHookedupOverwriteReset.__setattr__: a first binding always
succeeds; rebinding the identical object always succeeds; otherwise
rebinding raises AttributeError exactly when the currently bound value is a
hookedup.List. -/
def setattrGuard (attrs : String → Option PyVal) (attr_name : String) (attr : PyVal) :
    Except PyExc (String → Option PyVal) :=
  match attrs attr_name with
  | none => .ok (fun n => if n = attr_name then some attr else attrs n)
  | some original =>
      if original.id = attr.id then
        .ok (fun n => if n = attr_name then some attr else attrs n)
      else if original.isHookedList then
        .error (.attributeError ("Overwriting attribute " ++ attr_name ++ " of type hookedup.List prohibited"))
      else
        .ok (fun n => if n = attr_name then some attr else attrs n)

/-- Assign successive values at the given (already nonnegative) indices. -/
def setAll {α : Type} : List α → List (Int × α) → List α
  | l, [] => l
  | l, (i, x) :: rest => setAll (l.set i.toNat x) rest

/-- Native Python list slice assignment, the plain-sequence reference the
spec measures parity against: a unit-step slice splices the replacement in
between the normalized bounds; an extended slice requires an equal-length
replacement and assigns pointwise along the selected indices. -/
def nativeSliceAssign {α : Type} (items : List α) (sl : PySlice) (repl : List α) : Except PyExc (List α) :=
  match sliceIndices sl items.length with
  | .error e => .error e
  | .ok (start, stop, step) =>
      if step = 1 then
        .ok (items.take start.toNat ++ repl ++ items.drop (max start stop).toNat)
      else
        let idxs := sliceIdxList start stop step
        if idxs.length ≠ repl.length then
          .error (.valueError ("attempt to assign sequence of size " ++ toString repl.length
            ++ " to extended slice of size " ++ toString idxs.length))
        else
          .ok (setAll items (idxs.zip repl))

/-- The empty hook table: no callbacks registered. -/
def noHooks (α : Type) : Hooks α := fun _ => none

/-- A hook table with a single registered callback. -/
def onlyHook {α : Type} (n : HookName) (f : List α → List α → HookBehavior) : Hooks α :=
  fun m => if m = n then some f else none

/-- A callback that always raises Abort. -/
def alwaysAbortFn (α : Type) : List α → List α → HookBehavior := fun _ _ => .abort

/-- A pre_remove table that vetoes exactly the items satisfying p. -/
def vetoHook {α : Type} (p : α → Bool) : Hooks α :=
  onlyHook .pre_remove (fun _ args =>
    match args with
    | [a] => if p a then .abort else .ret
    | _ => .ret)

/-- Every registered callback returns normally on every invocation. -/
def AllRet {α : Type} (h : Hooks α) : Prop :=
  ∀ n f, h n = some f → ∀ st a, f st a = .ret

/-- No registered post-hook callback ever raises the Abort signal. -/
def NoPostAbort {α : Type} (h : Hooks α) : Prop :=
  ∀ n f, (n = HookName.post_add ∨ n = HookName.post_remove ∨ n = HookName.post_replace) →
    h n = some f → ∀ st a, f st a ≠ .abort

/-- No registered callback ever raises an exception other than Abort. -/
def NoErr {α : Type} (h : Hooks α) : Prop :=
  ∀ n f, h n = some f → ∀ st a, f st a ≠ .err

/-- The result of an operation carries no escaping Abort exception. -/
def PyRes.noAbortEsc {α ρ : Type} : PyRes α ρ → Prop
  | .err .abortExc _ _ => False
  | _ => True

/-- C1: evaluation of the source insert at a concrete failing input.  With
no hooks registered (so pre_add proceeds) insert(0, 9) on [0, 1, 2] leaves
the list unchanged, while with an always-aborting pre_add the item IS
inserted, the abort counter is bumped, and post_add fires: the test on the
pre_add hook in List.insert is inverted, so a pre_add veto causes rather
than prevents the insertion, contradicting the docstring of insert, the
class docstring, and invariant I2. -/
theorem insert_veto_inverted_eval :
    insert (noHooks Int) 0 9 [0, 1, 2] Ctrs.zero = .ok () [0, 1, 2] Ctrs.zero ∧
    insert (onlyHook .pre_add (alwaysAbortFn Int)) 0 9 [0, 1, 2] Ctrs.zero
      = .ok () [9, 0, 1, 2] (Ctrs.zero.bump .pre_add) := by
  exact ⟨rfl, rfl⟩

/-- C8, as stated, is false at its own scenario: deleting the slice
[4:0:-1] from [0,1,2,3] with an always-vetoing pre_remove leaves the list
unchanged but leaves the pre_remove abort counter at 3 (the slice selects
the three elements at indices 3, 2, 1), not at the 4 the spec states. -/
theorem delitem_slice_abort_counter_not_four :
    delitemSlice (onlyHook .pre_remove (alwaysAbortFn Int))
        (PySlice.mk (some 4) (some 0) (some (-1))) [0, 1, 2, 3] Ctrs.zero
      = .ok () [0, 1, 2, 3] (Ctrs.zero.bumpN .pre_remove 3) ∧
    (Ctrs.zero.bumpN .pre_remove 3).get .pre_remove ≠ 4 := by
  exact ⟨by decide, by decide⟩

/-- C8 amended: the scenario leaves S = [0,1,2,3] fully unchanged and the
pre_remove abort counter equals 3, which is the number of elements the
slice [4:0:-1] selects (and would otherwise have removed), as the length
of the materialized slice read confirms. -/
theorem delitem_slice_abort_scenario :
    delitemSlice (onlyHook .pre_remove (alwaysAbortFn Int))
        (PySlice.mk (some 4) (some 0) (some (-1))) [0, 1, 2, 3] Ctrs.zero
      = .ok () [0, 1, 2, 3] (Ctrs.zero.bumpN .pre_remove 3) ∧
    (pyGetSlice ([0, 1, 2, 3] : List Int) (PySlice.mk (some 4) (some 0) (some (-1)))).toOption.map List.length
      = some 3 ∧
    (Ctrs.zero.bumpN .pre_remove 3).get .pre_remove = 3 := by
  exact ⟨by decide, by decide, by decide⟩

/-- C9: the attribute guard allows the first binding of a name
unconditionally; a later rebinding raises an AttributeError exactly when
the currently bound value is a hookedup.List and the new value is not the
identical object, and otherwise (identical object, or current value not a
hookedup.List) stores the new value. -/
theorem setattr_guard_contract (attrs : String → Option PyVal) (name : String) (v : PyVal) :
    (attrs name = none →
      setattrGuard attrs name v = .ok (fun n => if n = name then some v else attrs n)) ∧
    (∀ o, attrs name = some o →
      ((∃ msg, setattrGuard attrs name v = .error (.attributeError msg)) ↔
          o.isHookedList = true ∧ o.id ≠ v.id) ∧
      (¬ (o.isHookedList = true ∧ o.id ≠ v.id) →
        setattrGuard attrs name v = .ok (fun n => if n = name then some v else attrs n))) := by
  constructor
  · intro hnone
    simp [setattrGuard, hnone]
  · intro o hsome
    unfold setattrGuard
    rw [hsome]
    by_cases hid : o.id = v.id
    · simp [hid]
    · by_cases hl : o.isHookedList
      · simp [hid, hl]
      · simp [hid, hl]

/-- C9 witness: on an empty attribute table, binding a name succeeds. -/
theorem setattr_guard_contract_witness :
    setattrGuard (fun _ => none) "xs" ⟨0, true⟩
      = .ok (fun n => if n = "xs" then some ⟨0, true⟩ else none) :=
  (setattr_guard_contract (fun _ => none) "xs" ⟨0, true⟩).1 rfl

/-- C10: whenever __imul__ with an integer multiplier of at least 1
returns, it returns the list object itself; for a multiplier of at most 0
it returns exactly what clear() returns, namely the Python None, so after
an in-place multiply by 0 the name is rebound to None even though the
container was emptied (or partially emptied) in place. -/
theorem imul_return_contract :
    (∀ (α : Type) (h : Hooks α) (items : List α) (ctrs : Ctrs) (n : Int) (r : ImulRet)
        (it : List α) (c : Ctrs),
      1 ≤ n → imul h (.int n) items ctrs = .ok r it c → r = .selfList) ∧
    (∀ (α : Type) (h : Hooks α) (items : List α) (ctrs : Ctrs) (n : Int),
      n ≤ 0 →
      imul h (.int n) items ctrs =
        match clear h items ctrs with
        | .ok _ it c => .ok .noneVal it c
        | .err e it c => .err e it c) := by
  constructor
  · intro α h items ctrs n r it c h1 hres
    unfold imul at hres
    dsimp only at hres
    rw [if_neg (by omega)] at hres
    revert hres
    cases imulLoop h items (n - 1).toNat items ctrs with
    | ok r2 it2 c2 => intro hres; cases hres; rfl
    | err e it2 c2 => intro hres; cases hres
  · intro α h items ctrs n h0
    unfold imul
    dsimp only
    rw [if_pos h0]
    cases clear h items ctrs <;> rfl

/-- C10 witness: multiplying [5] in place by 2 returns the list itself
(and by the theorem any returning run with multiplier 2 does), while
multiplying by 0 returns None. -/
theorem imul_return_contract_witness :
    ImulRet.selfList = ImulRet.selfList ∧
    imul (noHooks Int) (.int 0) [5] Ctrs.zero = .ok .noneVal [] Ctrs.zero := by
  constructor
  · exact imul_return_contract.1 Int (noHooks Int) [5] Ctrs.zero 2 .selfList [5, 5] Ctrs.zero
      (by decide) (by decide)
  · rw [imul_return_contract.2 Int (noHooks Int) [5] Ctrs.zero 0 (by decide)]
    decide

/-- C5: the hook invocation primitive returns Proceed (false) at once,
leaving list and counters untouched, when no callback is registered for
the event name; when the callback raises Abort the outcome is true and
exactly that abort counter is incremented by one; when the callback raises
any other exception the invocation escapes with that error, and a mutating
operation such as append passes it through unmodified. -/
theorem hook_invocation_contract :
    (∀ (α : Type) (h : Hooks α) (n : HookName) (args items : List α) (ctrs : Ctrs),
      h n = none → hook_fxn_aborts h n args items ctrs = .ok false items ctrs) ∧
    (∀ (α : Type) (h : Hooks α) (n : HookName) (args items : List α) (ctrs : Ctrs) f,
      h n = some f → f items args = .abort →
      hook_fxn_aborts h n args items ctrs = .ok true items (ctrs.bump n) ∧
        (ctrs.bump n).get n = ctrs.get n + 1 ∧
        ∀ m, m ≠ n → (ctrs.bump n).get m = ctrs.get m) ∧
    (∀ (α : Type) (h : Hooks α) (n : HookName) (args items : List α) (ctrs : Ctrs) f,
      h n = some f → f items args = .err →
      hook_fxn_aborts h n args items ctrs = .err .hookError items ctrs) ∧
    (∀ (α : Type) (h : Hooks α) (item : α) (items : List α) (ctrs : Ctrs) f,
      h .pre_add = some f → f items [item] = .err →
      append h item items ctrs = .err .hookError items ctrs) := by
  refine ⟨?_, ?_, ?_, ?_⟩
  · intro α h n args items ctrs hnone
    simp [hook_fxn_aborts, hnone]
  · intro α h n args items ctrs f hsome hab
    refine ⟨by simp [hook_fxn_aborts, hsome, hab], ?_, ?_⟩
    · cases n <;> simp [Ctrs.bump, Ctrs.get]
    · intro m hm
      cases n <;> cases m <;> simp [Ctrs.bump, Ctrs.get] <;> exact absurd rfl hm
  · intro α h n args items ctrs f hsome herr
    simp [hook_fxn_aborts, hsome, herr]
  · intro α h item items ctrs f hsome herr
    simp [append, hook_fxn_aborts, hsome, herr]

/-- C5 witness: with no hooks registered, invoking pre_add on [7] returns
Proceed and changes nothing. -/
theorem hook_invocation_contract_witness :
    hook_fxn_aborts (noHooks Int) .pre_add [7] [7] Ctrs.zero = .ok false [7] Ctrs.zero :=
  hook_invocation_contract.1 Int (noHooks Int) .pre_add [7] [7] Ctrs.zero rfl

/-- The bounds check fails, with the fxn_name-tagged IndexError, exactly
on the indices a native sequence of the same length rejects. -/
theorem verify_index_bounds_err {length : Nat} {i : Int} (s : String)
    (hbad : i < -(length : Int) ∨ (length : Int) ≤ i) :
    verify_index_bounds length i s = .error (.indexError (s ++ " index out of range")) := by
  unfold verify_index_bounds
  rw [if_pos (by omega)]

/-- The bounds check passes on every index a native sequence accepts. -/
theorem verify_index_bounds_ok {length : Nat} {i : Int} (s : String)
    (h : -(length : Int) ≤ i ∧ i < (length : Int)) :
    verify_index_bounds length i s = .ok () := by
  unfold verify_index_bounds
  rw [if_neg (by omega)]

/-- A successful integer item read implies the index was in native
bounds. -/
theorem pyGetItem_ok_bounds {α : Type} {l : List α} {i : Int} {x : α}
    (h : pyGetItem l i = .ok x) : -(l.length : Int) ≤ i ∧ i < (l.length : Int) := by
  unfold pyGetItem at h
  split at h
  · rename_i hc
    unfold pyWrapIdx at hc
    by_cases hi : i < 0 <;> simp only [hi, if_true, if_false, reduceIte] at hc <;> omega
  · cases h

/-- C2: pop validates its index against the current length first, raising
the pop-tagged IndexError (on an empty list or an index outside native
bounds) before any hook runs and with the list and counters untouched;
on a valid index it reads the item and consults pre_remove: a veto leaves
the list unchanged, bumps the pre_remove counter, and still returns the
item; a proceed removes the item, fires post_remove (whose outcome decides
only whether an error escapes), and returns the item. -/
theorem pop_contract :
    (∀ (α : Type) (h : Hooks α) (items : List α) (ctrs : Ctrs) (i : Int),
      (i < -(items.length : Int) ∨ (items.length : Int) ≤ i) →
      pop h i items ctrs = .err (.indexError "pop index out of range") items ctrs) ∧
    (∀ (α : Type) (h : Hooks α) (items : List α) (ctrs : Ctrs) (i : Int) (item : α) f,
      pyGetItem items i = .ok item →
      h .pre_remove = some f → f items [item] = .abort →
      pop h i items ctrs = .ok item items (ctrs.bump .pre_remove)) ∧
    (∀ (α : Type) (h : Hooks α) (items : List α) (ctrs : Ctrs) (i : Int) (item : α)
        (items2 : List α),
      pyGetItem items i = .ok item →
      pyDelItem items i = .ok items2 →
      (h .pre_remove = none ∨ ∃ f, h .pre_remove = some f ∧ f items [item] = .ret) →
      (h .post_remove = none → pop h i items ctrs = .ok item items2 ctrs) ∧
      (∀ g, h .post_remove = some g →
        (g items2 [item] = .ret → pop h i items ctrs = .ok item items2 ctrs) ∧
        (g items2 [item] = .err → pop h i items ctrs = .err .hookError items2 ctrs))) := by
  refine ⟨?_, ?_, ?_⟩
  · intro α h items ctrs i hbad
    unfold pop
    rw [verify_index_bounds_err _ hbad]
    rfl
  · intro α h items ctrs i item f hget hsome hab
    unfold pop
    rw [verify_index_bounds_ok _ (pyGetItem_ok_bounds hget), hget]
    simp [hook_fxn_aborts, hsome, hab]
  · intro α h items ctrs i item items2 hget hdel hpre
    have hbounds := pyGetItem_ok_bounds hget
    have hmain : ∀ (goal : PyRes α α),
        (match call_post_hook_fxn h .post_remove [item] items2 ctrs with
          | .err e it3 c3 => .err e it3 c3
          | .ok _ it3 c3 => PyRes.ok item it3 c3) = goal →
        pop h i items ctrs = goal := by
      intro goal hg
      unfold pop
      rw [verify_index_bounds_ok _ hbounds, hget]
      rcases hpre with hnone | ⟨f, hsome, hret⟩
      · simp only [hook_fxn_aborts, hnone]
        rw [hdel]
        exact hg
      · simp only [hook_fxn_aborts, hsome, hret]
        rw [hdel]
        exact hg
    refine ⟨?_, ?_⟩
    · intro hpnone
      exact hmain _ (by simp [call_post_hook_fxn, hpnone])
    · intro g hpsome
      refine ⟨?_, ?_⟩
      · intro hret
        exact hmain _ (by simp [call_post_hook_fxn, hpsome, hret])
      · intro herr
        exact hmain _ (by simp [call_post_hook_fxn, hpsome, herr])

/-- C2 witness: popping index 5 from the two-element list [1, 2] raises
the pop-tagged IndexError and touches nothing. -/
theorem pop_contract_witness :
    pop (noHooks Int) 5 [1, 2] Ctrs.zero
      = .err (.indexError "pop index out of range") [1, 2] Ctrs.zero :=
  pop_contract.1 Int (noHooks Int) [1, 2] Ctrs.zero 5 (by decide)

/-- C4: every validation failure is raised before any hook executes (the
result is one fixed error for every hook table, including tables whose
callbacks would themselves raise) and with the container contents and the
counters exactly unchanged, and the error is the kind a native list raises
there: the pop / item-assignment / item-deletion bounds errors fire exactly
outside native bounds, a zero slice step and an extended-slice shape
mismatch raise ValueError, remove of an absent value raises ValueError, and
a non-integer non-slice index, a non-iterable extend argument, and a
non-integer multiplier raise TypeError. -/
theorem validation_before_hooks :
    (∀ (α : Type) (h : Hooks α) (items : List α) (ctrs : Ctrs) (i : Int),
      (i < -(items.length : Int) ∨ (items.length : Int) ≤ i) →
      pop h i items ctrs = .err (.indexError "pop index out of range") items ctrs) ∧
    (∀ (α : Type) (h : Hooks α) (items : List α) (ctrs : Ctrs) (i : Int) (r : α),
      (i < -(items.length : Int) ∨ (items.length : Int) ≤ i) →
      setitemInt h i r items ctrs
        = .err (.indexError "list assignment index out of range") items ctrs) ∧
    (∀ (α : Type) (h : Hooks α) (items : List α) (ctrs : Ctrs) (i : Int),
      (i < -(items.length : Int) ∨ (items.length : Int) ≤ i) →
      delitemInt h i items ctrs
        = .err (.indexError "list assignment index out of range") items ctrs) ∧
    (∀ (α : Type) (h : Hooks α) (sl : PySlice) (repl items : List α) (ctrs : Ctrs),
      sl.step = some 0 →
      setitemSlice h sl repl items ctrs
        = .err (.valueError "slice step cannot be zero") items ctrs) ∧
    (∀ (α : Type) (h : Hooks α) (sl : PySlice) (items : List α) (ctrs : Ctrs),
      sl.step = some 0 →
      delitemSlice h sl items ctrs
        = .err (.valueError "slice step cannot be zero") items ctrs) ∧
    (∀ (α : Type) (h : Hooks α) (sl : PySlice) (st : Int) (repl items ls : List α)
        (ctrs : Ctrs),
      sl.step = some st → ¬ st = 1 → ¬ st = 0 →
      pyGetSlice items sl = .ok ls → ls.length ≠ repl.length →
      setitemSlice h sl repl items ctrs
        = .err (.valueError ("attempt to assign sequence of size " ++ toString repl.length
            ++ " to extended slice of size " ++ toString ls.length)) items ctrs) ∧
    (∀ (α : Type) [DecidableEq α] (h : Hooks α) (item : α) (items : List α) (ctrs : Ctrs),
      item ∉ items →
      remove h item items ctrs = .err (.valueError "list.remove(x): x not in list") items ctrs) ∧
    (∀ (α : Type) (h : Hooks α) (t : String) (items : List α) (ctrs : Ctrs),
      delitem h (.other t) items ctrs
        = .err (.typeError ("list indices must be integers or slices, not " ++ t)) items ctrs) ∧
    (∀ (α : Type) (h : Hooks α) (t : String) (items : List α) (ctrs : Ctrs),
      extend h (.notIter t) items ctrs
        = .err (.typeError (t ++ " object is not iterable")) items ctrs) ∧
    (∀ (α : Type) (h : Hooks α) (t : String) (items : List α) (ctrs : Ctrs),
      imul h (.notInt t) items ctrs
        = .err (.typeError (t ++ "object cannot be interpreted as an integer")) items ctrs) := by
  refine ⟨?_, ?_, ?_, ?_, ?_, ?_, ?_, ?_, ?_, ?_⟩
  · intro α h items ctrs i hbad
    unfold pop
    rw [verify_index_bounds_err _ hbad]
    rfl
  · intro α h items ctrs i r hbad
    unfold setitemInt
    rw [verify_index_bounds_err _ hbad]
    rfl
  · intro α h items ctrs i hbad
    unfold delitemInt
    rw [verify_index_bounds_err _ hbad]
    rfl
  · intro α h sl repl items ctrs hstep
    simp [setitemSlice, pyGetSlice, sliceIndices, hstep]
  · intro α h sl items ctrs hstep
    simp [delitemSlice, pyGetSlice, sliceIndices, hstep]
  · intro α h sl st repl items ls ctrs hstep hne1 hne0 hget hlen
    unfold setitemSlice
    rw [hget]
    simp only [verify_slices_are_valid, hstep, if_neg hne1, if_neg hne0, if_pos hlen]
  · intro α _ h item items ctrs hnotin
    unfold remove
    rw [if_neg hnotin]
  · intro α h t items ctrs
    rfl
  · intro α h t items ctrs
    rfl
  · intro α h t items ctrs
    rfl

/-- C4 witness: assigning at index 7 of the three-element list [1, 2, 3]
raises the native list-assignment IndexError with nothing changed. -/
theorem validation_before_hooks_witness :
    setitemInt (noHooks Int) 7 9 [1, 2, 3] Ctrs.zero
      = .err (.indexError "list assignment index out of range") [1, 2, 3] Ctrs.zero :=
  validation_before_hooks.2.1 Int (noHooks Int) [1, 2, 3] Ctrs.zero 7 9 (by decide)

/-- The three post-event names. -/
def HookName.isPost (n : HookName) : Prop :=
  n = HookName.post_add ∨ n = HookName.post_remove ∨ n = HookName.post_replace

/-- The pre-hook invocation never produces an escaping Abort: it catches
Abort and turns it into the Boolean outcome. -/
theorem hook_fxn_aborts_noAbortEsc {α : Type} (h : Hooks α) (n : HookName)
    (args items : List α) (ctrs : Ctrs) :
    (hook_fxn_aborts h n args items ctrs).noAbortEsc := by
  unfold hook_fxn_aborts
  cases h n with
  | none => trivial
  | some f =>
      dsimp only
      cases f items args <;> trivial

/-- Under a hook table whose post-hooks never raise Abort, the post-hook
invocation never produces an escaping Abort. -/
theorem call_post_hook_noAbortEsc {α : Type} {h : Hooks α} (hnp : NoPostAbort h)
    {n : HookName} (hpost : n.isPost) (args items : List α) (ctrs : Ctrs) :
    (call_post_hook_fxn h n args items ctrs).noAbortEsc := by
  unfold call_post_hook_fxn
  cases hn : h n with
  | none => trivial
  | some f =>
      dsimp only
      cases hf : f items args with
      | ret => trivial
      | err => trivial
      | abort => exact absurd hf (hnp n f hpost hn items args)

/-- An error result of a sub-step stays abort-free when transplanted. -/
theorem noAbortEsc_err {α ρ ρ2 : Type} {x : PyRes α ρ} {e : PyExc} {it : List α} {c : Ctrs}
    (hx : x.noAbortEsc) (heq : x = .err e it c) :
    (PyRes.err e it c : PyRes α ρ2).noAbortEsc := by
  subst heq
  cases e <;> trivial

/-- The bounds check returns either unit or its IndexError. -/
theorem verify_index_bounds_cases (length : Nat) (i : Int) (s : String) :
    verify_index_bounds length i s = .ok () ∨
    verify_index_bounds length i s = .error (.indexError (s ++ " index out of range")) := by
  unfold verify_index_bounds
  split
  · exact Or.inr rfl
  · exact Or.inl rfl

/-- An integer item read returns either an item or its IndexError. -/
theorem pyGetItem_cases {α : Type} (l : List α) (i : Int) :
    (∃ x, pyGetItem l i = .ok x) ∨ pyGetItem l i = .error (.indexError "list index out of range") := by
  unfold pyGetItem
  split
  · split
    · exact Or.inl ⟨_, rfl⟩
    · exact Or.inr rfl
  · exact Or.inr rfl

/-- An integer item write returns either a list or its IndexError. -/
theorem pySetItem_cases {α : Type} (l : List α) (i : Int) (x : α) :
    (∃ l2, pySetItem l i x = .ok l2) ∨
    pySetItem l i x = .error (.indexError "list assignment index out of range") := by
  unfold pySetItem
  split
  · exact Or.inl ⟨_, rfl⟩
  · exact Or.inr rfl

/-- An integer item deletion returns either a list or its IndexError. -/
theorem pyDelItem_cases {α : Type} (l : List α) (i : Int) :
    (∃ l2, pyDelItem l i = .ok l2) ∨
    pyDelItem l i = .error (.indexError "list assignment index out of range") := by
  unfold pyDelItem
  split
  · exact Or.inl ⟨_, rfl⟩
  · exact Or.inr rfl

/-- Slice normalization returns either a triple or its zero-step
ValueError. -/
theorem sliceIndices_cases (sl : PySlice) (length : Nat) :
    (∃ v, sliceIndices sl length = .ok v) ∨
    sliceIndices sl length = .error (.valueError "slice step cannot be zero") := by
  unfold sliceIndices
  dsimp only
  split
  · exact Or.inr rfl
  · exact Or.inl ⟨_, rfl⟩

/-- A slice read returns either a list or the zero-step ValueError. -/
theorem pyGetSlice_cases {α : Type} (l : List α) (sl : PySlice) :
    (∃ ls, pyGetSlice l sl = .ok ls) ∨
    pyGetSlice l sl = .error (.valueError "slice step cannot be zero") := by
  unfold pyGetSlice
  rcases sliceIndices_cases sl l.length with ⟨⟨start, stop, step⟩, hv⟩ | hv <;> rw [hv]
  · exact Or.inl ⟨_, rfl⟩
  · exact Or.inr rfl

/-- The slice shape check returns either unit or a ValueError. -/
theorem verify_slices_cases {α : Type} (sl : PySlice) (ls repl : List α) :
    verify_slices_are_valid sl ls repl = .ok () ∨
    ∃ msg, verify_slices_are_valid sl ls repl = .error (.valueError msg) := by
  unfold verify_slices_are_valid
  rcases sl.step with _ | st
  · exact Or.inl rfl
  · dsimp only
    split
    · exact Or.inl rfl
    · split
      · exact Or.inr ⟨_, rfl⟩
      · split
        · exact Or.inr ⟨_, rfl⟩
        · exact Or.inl rfl

theorem append_noAbortEsc {α : Type} {h : Hooks α} (hnp : NoPostAbort h)
    (item : α) (items : List α) (ctrs : Ctrs) :
    (append h item items ctrs).noAbortEsc := by
  unfold append
  cases hres : hook_fxn_aborts h .pre_add [item] items ctrs with
  | ok b it c =>
      cases b
      · exact call_post_hook_noAbortEsc hnp (Or.inl rfl) _ _ _
      · trivial
  | err e it c => exact noAbortEsc_err (hook_fxn_aborts_noAbortEsc h _ _ items ctrs) hres

theorem insert_noAbortEsc {α : Type} {h : Hooks α} (hnp : NoPostAbort h)
    (index : Int) (item : α) (items : List α) (ctrs : Ctrs) :
    (insert h index item items ctrs).noAbortEsc := by
  unfold insert
  cases hres : hook_fxn_aborts h .pre_add [item] items ctrs with
  | ok b it c =>
      cases b
      · trivial
      · exact call_post_hook_noAbortEsc hnp (Or.inl rfl) _ _ _
  | err e it c => exact noAbortEsc_err (hook_fxn_aborts_noAbortEsc h _ _ items ctrs) hres

theorem pop_noAbortEsc {α : Type} {h : Hooks α} (hnp : NoPostAbort h)
    (index : Int) (items : List α) (ctrs : Ctrs) :
    (pop h index items ctrs).noAbortEsc := by
  unfold pop
  rcases verify_index_bounds_cases items.length index "pop" with hv | hv <;> rw [hv]
  · rcases pyGetItem_cases items index with ⟨item, hg⟩ | hg <;> rw [hg]
    · dsimp only
      cases hres : hook_fxn_aborts h .pre_remove [item] items ctrs with
      | err e it c => exact noAbortEsc_err (hook_fxn_aborts_noAbortEsc h _ _ items ctrs) hres
      | ok b it c =>
          cases b
          · dsimp only
            rcases pyDelItem_cases it index with ⟨it2, hd⟩ | hd <;> rw [hd]
            · dsimp only
              cases hres2 : call_post_hook_fxn h .post_remove [item] it2 c with
              | ok u2 it3 c3 => trivial
              | err e it3 c3 =>
                  exact noAbortEsc_err
                    (call_post_hook_noAbortEsc hnp (Or.inr (Or.inl rfl)) [item] it2 c) hres2
            · trivial
          · trivial
    · trivial
  · trivial

theorem remove_noAbortEsc {α : Type} [DecidableEq α] {h : Hooks α} (hnp : NoPostAbort h)
    (item : α) (items : List α) (ctrs : Ctrs) :
    (remove h item items ctrs).noAbortEsc := by
  unfold remove
  by_cases hmem : item ∈ items
  · rw [if_pos hmem]
    cases hres : hook_fxn_aborts h .pre_remove [item] items ctrs with
    | err e it c => exact noAbortEsc_err (hook_fxn_aborts_noAbortEsc h _ _ items ctrs) hres
    | ok b it c =>
        cases b
        · exact call_post_hook_noAbortEsc hnp (Or.inr (Or.inl rfl)) _ _ _
        · trivial
  · rw [if_neg hmem]
    trivial

theorem setitemInt_noAbortEsc {α : Type} {h : Hooks α} (hnp : NoPostAbort h)
    (index : Int) (repl : α) (items : List α) (ctrs : Ctrs) :
    (setitemInt h index repl items ctrs).noAbortEsc := by
  unfold setitemInt
  rcases verify_index_bounds_cases items.length index "list assignment" with hv | hv <;> rw [hv]
  · rcases pyGetItem_cases items index with ⟨item, hg⟩ | hg <;> rw [hg]
    · dsimp only
      cases hres : hook_fxn_aborts h .pre_replace [item, repl] items ctrs with
      | err e it c => exact noAbortEsc_err (hook_fxn_aborts_noAbortEsc h _ _ items ctrs) hres
      | ok b it c =>
          cases b
          · dsimp only
            rcases pySetItem_cases it index repl with ⟨it2, hs⟩ | hs <;> rw [hs]
            · exact call_post_hook_noAbortEsc hnp (Or.inr (Or.inr rfl)) _ _ _
            · trivial
          · trivial
    · trivial
  · trivial

theorem delitemInt_noAbortEsc {α : Type} {h : Hooks α} (hnp : NoPostAbort h)
    (index : Int) (items : List α) (ctrs : Ctrs) :
    (delitemInt h index items ctrs).noAbortEsc := by
  unfold delitemInt
  rcases verify_index_bounds_cases items.length index "list assignment" with hv | hv <;> rw [hv]
  · rcases pyGetItem_cases items index with ⟨item, hg⟩ | hg <;> rw [hg]
    · dsimp only
      cases hres : hook_fxn_aborts h .pre_remove [item] items ctrs with
      | err e it c => exact noAbortEsc_err (hook_fxn_aborts_noAbortEsc h _ _ items ctrs) hres
      | ok b it c =>
          cases b
          · dsimp only
            rcases pyDelItem_cases it index with ⟨it2, hd⟩ | hd <;> rw [hd]
            · exact call_post_hook_noAbortEsc hnp (Or.inr (Or.inl rfl)) _ _ _
            · trivial
          · trivial
    · trivial
  · trivial

theorem clearAux_noAbortEsc {α : Type} {h : Hooks α} (hnp : NoPostAbort h) :
    ∀ (fuel : Nat) (items : List α) (ctrs : Ctrs) (i : Nat),
    (clearAux h fuel items ctrs i).noAbortEsc := by
  intro fuel
  induction fuel with
  | zero => intro items ctrs i; trivial
  | succ fuel ih =>
      intro items ctrs i
      unfold clearAux
      by_cases hlt : i < items.length
      · rw [dif_pos hlt]
        cases hres : hook_fxn_aborts h .pre_remove [items.get ⟨i, hlt⟩] items ctrs with
        | err e it c => exact noAbortEsc_err (hook_fxn_aborts_noAbortEsc h _ _ items ctrs) hres
        | ok b it c =>
            cases b
            · dsimp only
              cases hres2 : call_post_hook_fxn h .post_remove [items.get ⟨i, hlt⟩]
                  (items.eraseIdx i) c with
              | ok u2 it3 c3 => exact ih _ _ _
              | err e it3 c3 =>
                  exact noAbortEsc_err
                    (call_post_hook_noAbortEsc hnp (Or.inr (Or.inl rfl)) _ _ c) hres2
            · exact ih _ _ _
      · rw [dif_neg hlt]
        trivial

theorem clear_noAbortEsc {α : Type} {h : Hooks α} (hnp : NoPostAbort h)
    (items : List α) (ctrs : Ctrs) :
    (clear h items ctrs).noAbortEsc :=
  clearAux_noAbortEsc hnp items.length items ctrs 0

theorem extendList_noAbortEsc {α : Type} {h : Hooks α} (hnp : NoPostAbort h) :
    ∀ (xs items : List α) (ctrs : Ctrs), (extendList h xs items ctrs).noAbortEsc := by
  intro xs
  induction xs with
  | nil => intro items ctrs; trivial
  | cons x rest ih =>
      intro items ctrs
      unfold extendList
      cases hres : append h x items ctrs with
      | ok u it c => exact ih it c
      | err e it c => exact noAbortEsc_err (append_noAbortEsc hnp x items ctrs) hres

theorem extend_noAbortEsc {α : Type} {h : Hooks α} (hnp : NoPostAbort h)
    (arg : PyIter α) (items : List α) (ctrs : Ctrs) :
    (extend h arg items ctrs).noAbortEsc := by
  cases arg with
  | notIter t => trivial
  | iter xs => exact extendList_noAbortEsc hnp xs items ctrs

theorem imulLoop_noAbortEsc {α : Type} {h : Hooks α} (hnp : NoPostAbort h)
    (original : List α) :
    ∀ (k : Nat) (items : List α) (ctrs : Ctrs), (imulLoop h original k items ctrs).noAbortEsc := by
  intro k
  induction k with
  | zero => intro items ctrs; trivial
  | succ k ih =>
      intro items ctrs
      unfold imulLoop
      cases hres : extendList h original items ctrs with
      | ok u it c => exact ih it c
      | err e it c => exact noAbortEsc_err (extendList_noAbortEsc hnp original items ctrs) hres

theorem imul_noAbortEsc {α : Type} {h : Hooks α} (hnp : NoPostAbort h)
    (m : PyMulArg) (items : List α) (ctrs : Ctrs) :
    (imul h m items ctrs).noAbortEsc := by
  cases m with
  | notInt t => trivial
  | int n =>
      unfold imul
      dsimp only
      by_cases hn : n ≤ 0
      · rw [if_pos hn]
        cases hres : clear h items ctrs with
        | ok u it c => trivial
        | err e it c => exact noAbortEsc_err (clear_noAbortEsc hnp items ctrs) hres
      · rw [if_neg hn]
        cases hres : imulLoop h items (n - 1).toNat items ctrs with
        | ok u it c => trivial
        | err e it c => exact noAbortEsc_err (imulLoop_noAbortEsc hnp items _ items ctrs) hres

theorem replace_corresponding_noAbortEsc {α : Type} {h : Hooks α} (hnp : NoPostAbort h) :
    ∀ (idxs : List Int) (ls rs items : List α) (ctrs : Ctrs) (i0 : Int),
    (replace_corresponding h idxs ls rs items ctrs i0).noAbortEsc := by
  intro idxs
  induction idxs with
  | nil => intro ls rs items ctrs i0; cases ls <;> cases rs <;> trivial
  | cons i idxs ih =>
      intro ls rs items ctrs i0
      cases ls with
      | nil => trivial
      | cons l ls =>
          cases rs with
          | nil => trivial
          | cons r rs =>
              unfold replace_corresponding
              cases hres : setitemInt h i r items ctrs with
              | ok u it c => exact ih ls rs it c (i + 1)
              | err e it c => exact noAbortEsc_err (setitemInt_noAbortEsc hnp i r items ctrs) hres

theorem remove_remaining_noAbortEsc {α : Type} {h : Hooks α} (hnp : NoPostAbort h) (step : Int) :
    ∀ (n : Nat) (i : Int) (items : List α) (ctrs : Ctrs),
    (remove_remaining h step n i items ctrs).noAbortEsc := by
  intro n
  induction n with
  | zero => intro i items ctrs; trivial
  | succ n ih =>
      intro i items ctrs
      unfold remove_remaining
      rcases pyGetItem_cases items i with ⟨item, hg⟩ | hg <;> rw [hg]
      · dsimp only
        cases hres : hook_fxn_aborts h .pre_remove [item] items ctrs with
        | err e it c => exact noAbortEsc_err (hook_fxn_aborts_noAbortEsc h _ _ items ctrs) hres
        | ok b it c =>
            cases b
            · dsimp only
              rcases pyDelItem_cases it i with ⟨it2, hd⟩ | hd <;> rw [hd]
              · dsimp only
                cases hres2 : call_post_hook_fxn h .post_remove [item] it2 c with
                | err e it3 c3 =>
                    exact noAbortEsc_err
                      (call_post_hook_noAbortEsc hnp (Or.inr (Or.inl rfl)) [item] it2 c) hres2
                | ok u2 it3 c3 =>
                    dsimp only
                    by_cases hs : 0 < step
                    · rw [if_pos hs]; exact ih _ _ _
                    · rw [if_neg hs]; exact ih _ _ _
              · trivial
            · exact ih _ _ _
      · trivial

theorem add_remaining_noAbortEsc {α : Type} {h : Hooks α} (hnp : NoPostAbort h)
    (replacement : List α) :
    ∀ (ris : List Int) (i : Int) (items : List α) (ctrs : Ctrs),
    (add_remaining h replacement ris i items ctrs).noAbortEsc := by
  intro ris
  induction ris with
  | nil => intro i items ctrs; trivial
  | cons ri rest ih =>
      intro i items ctrs
      unfold add_remaining
      rcases pyGetItem_cases replacement ri with ⟨item, hg⟩ | hg <;> rw [hg]
      · dsimp only
        cases hres : hook_fxn_aborts h .pre_add [item] items ctrs with
        | err e it c => exact noAbortEsc_err (hook_fxn_aborts_noAbortEsc h _ _ items ctrs) hres
        | ok b it c =>
            cases b
            · dsimp only
              cases hres2 : call_post_hook_fxn h .post_add [item] (pyInsert it i item) c with
              | err e it3 c3 =>
                  exact noAbortEsc_err
                    (call_post_hook_noAbortEsc hnp (Or.inl rfl) [item] (pyInsert it i item) c)
                    hres2
              | ok u2 it3 c3 => exact ih _ _ _
            · exact ih _ _ _
      · trivial

theorem setitemSlice_noAbortEsc {α : Type} {h : Hooks α} (hnp : NoPostAbort h)
    (sl : PySlice) (replacement items : List α) (ctrs : Ctrs) :
    (setitemSlice h sl replacement items ctrs).noAbortEsc := by
  unfold setitemSlice
  rcases pyGetSlice_cases items sl with ⟨list_slice, hgs⟩ | hgs <;> rw [hgs]
  · dsimp only
    rcases verify_slices_cases sl list_slice replacement with hvs | ⟨msg, hvs⟩ <;> rw [hvs]
    · dsimp only
      rcases sliceIndices_cases sl items.length with ⟨⟨start, stop, step⟩, hsi⟩ | hsi <;> rw [hsi]
      · dsimp only
        cases hres : replace_corresponding h (sliceIdxList start stop step) list_slice
            replacement items ctrs start with
        | err e it c =>
            exact noAbortEsc_err
              (replace_corresponding_noAbortEsc hnp _ _ _ items ctrs start) hres
        | ok last it c =>
            dsimp only
            by_cases h1 : 0 < (list_slice.length : Int) - (replacement.length : Int)
            · rw [if_pos h1]
              exact remove_remaining_noAbortEsc hnp _ _ _ _ _
            · rw [if_neg h1]
              by_cases h2 : (list_slice.length : Int) - (replacement.length : Int) < 0
              · rw [if_pos h2]
                exact add_remaining_noAbortEsc hnp _ _ _ _ _
              · rw [if_neg h2]
                trivial
      · trivial
    · trivial
  · trivial

theorem delitemSlice_noAbortEsc {α : Type} {h : Hooks α} (hnp : NoPostAbort h)
    (sl : PySlice) (items : List α) (ctrs : Ctrs) :
    (delitemSlice h sl items ctrs).noAbortEsc := by
  unfold delitemSlice
  rcases pyGetSlice_cases items sl with ⟨list_slice, hgs⟩ | hgs <;> rw [hgs]
  · dsimp only
    rcases sliceIndices_cases sl items.length with ⟨⟨start, stop, step⟩, hsi⟩ | hsi <;> rw [hsi]
    · dsimp only
      cases hres : replace_corresponding h (sliceIdxList start stop step) list_slice
          [] items ctrs start with
      | err e it c =>
          exact noAbortEsc_err
            (replace_corresponding_noAbortEsc hnp _ _ _ items ctrs start) hres
      | ok last it c => exact remove_remaining_noAbortEsc hnp _ _ _ _ _
    · trivial
  · trivial

theorem delitem_noAbortEsc {α : Type} {h : Hooks α} (hnp : NoPostAbort h)
    (ix : PyIx) (items : List α) (ctrs : Ctrs) :
    (delitem h ix items ctrs).noAbortEsc := by
  cases ix with
  | int i => exact delitemInt_noAbortEsc hnp i items ctrs
  | slc sl => exact delitemSlice_noAbortEsc hnp sl items ctrs
  | other t => trivial

/-- C3 as stated is false: an Abort raised by a registered post_add hook
escapes from append to its caller as the Abort exception (with the append
itself already performed), so the Abort signal does propagate past the
mutating method when a post-hook raises it. -/
theorem abort_escapes_from_post_hook :
    append (onlyHook .post_add (alwaysAbortFn Int)) 5 [1, 2] Ctrs.zero
      = .err .abortExc [1, 2, 5] Ctrs.zero := by
  decide

/-- C3 amended: an Abort raised by a pre-hook never propagates out of any
mutating operation (whenever no post-hook aborts, no operation result
carries an escaping Abort, whatever the pre-hooks do, veto included); but
an Abort raised by a post-hook is not absorbed: it escapes to the caller
as the Abort exception, the already-completed mutation being retained. -/
theorem abort_confinement_amended :
    (∀ (α : Type) (h : Hooks α), NoPostAbort h →
      (∀ (item : α) (items : List α) (ctrs : Ctrs),
        (append h item items ctrs).noAbortEsc) ∧
      (∀ (index : Int) (item : α) (items : List α) (ctrs : Ctrs),
        (insert h index item items ctrs).noAbortEsc) ∧
      (∀ (index : Int) (items : List α) (ctrs : Ctrs),
        (pop h index items ctrs).noAbortEsc) ∧
      (∀ (items : List α) (ctrs : Ctrs), (clear h items ctrs).noAbortEsc) ∧
      (∀ (arg : PyIter α) (items : List α) (ctrs : Ctrs),
        (extend h arg items ctrs).noAbortEsc) ∧
      (∀ (m : PyMulArg) (items : List α) (ctrs : Ctrs),
        (imul h m items ctrs).noAbortEsc) ∧
      (∀ (index : Int) (repl : α) (items : List α) (ctrs : Ctrs),
        (setitemInt h index repl items ctrs).noAbortEsc) ∧
      (∀ (sl : PySlice) (repl items : List α) (ctrs : Ctrs),
        (setitemSlice h sl repl items ctrs).noAbortEsc) ∧
      (∀ (ix : PyIx) (items : List α) (ctrs : Ctrs),
        (delitem h ix items ctrs).noAbortEsc)) ∧
    (∀ (α : Type) [DecidableEq α] (h : Hooks α), NoPostAbort h →
      ∀ (item : α) (items : List α) (ctrs : Ctrs),
        (remove h item items ctrs).noAbortEsc) ∧
    append (onlyHook .post_add (alwaysAbortFn Int)) 7 [] Ctrs.zero
      = .err .abortExc [7] Ctrs.zero := by
  refine ⟨?_, ?_, by decide⟩
  · intro α h hnp
    exact ⟨fun item items ctrs => append_noAbortEsc hnp item items ctrs,
      fun index item items ctrs => insert_noAbortEsc hnp index item items ctrs,
      fun index items ctrs => pop_noAbortEsc hnp index items ctrs,
      fun items ctrs => clear_noAbortEsc hnp items ctrs,
      fun arg items ctrs => extend_noAbortEsc hnp arg items ctrs,
      fun m items ctrs => imul_noAbortEsc hnp m items ctrs,
      fun index repl items ctrs => setitemInt_noAbortEsc hnp index repl items ctrs,
      fun sl repl items ctrs => setitemSlice_noAbortEsc hnp sl repl items ctrs,
      fun ix items ctrs => delitem_noAbortEsc hnp ix items ctrs⟩
  · intro α _ h hnp item items ctrs
    exact remove_noAbortEsc hnp item items ctrs

/-- C3 amended witness: with no hooks registered (so no post-hook can
abort), a concrete append result carries no escaping Abort. -/
theorem abort_confinement_amended_witness :
    (append (noHooks Int) 5 [1] Ctrs.zero).noAbortEsc :=
  ((abort_confinement_amended.1 Int (noHooks Int)
    (fun _ _ _ hsome => Option.noConfusion hsome)).1) 5 [1] Ctrs.zero

/-- Bumping then iterating equals iterating once more. -/
theorem Ctrs.bump_bumpN (c : Ctrs) (n : HookName) (k : Nat) :
    (c.bump n).bumpN n k = c.bumpN n (k + 1) := by
  induction k with
  | zero => rfl
  | succ k ih => simp only [Ctrs.bumpN, ih]

/-- Running the clear loop from index i with a pure per-item veto predicate
keeps the already-scanned prefix, filters the rest by the veto, and counts
one abort per retained element. -/
theorem clearAux_vetoHook {α : Type} (p : α → Bool) :
    ∀ (fuel : Nat) (items : List α) (ctrs : Ctrs) (i : Nat),
      items.length - i ≤ fuel →
      clearAux (vetoHook p) fuel items ctrs i
        = .ok () (items.take i ++ (items.drop i).filter p)
            (ctrs.bumpN .pre_remove ((items.drop i).countP p)) := by
  intro fuel
  induction fuel with
  | zero =>
      intro items ctrs i hfuel
      have hlen : items.length ≤ i := by omega
      rw [List.drop_eq_nil_of_le hlen]
      simp [clearAux, List.take_of_length_le hlen, Ctrs.bumpN]
  | succ fuel ih =>
      intro items ctrs i hfuel
      unfold clearAux
      by_cases hlt : i < items.length
      · rw [dif_pos hlt]
        have hdrop : items.drop i = items[i] :: items.drop (i + 1) :=
          List.drop_eq_getElem_cons hlt
        have htake : items.take (i + 1) = items.take i ++ [items[i]] := by
          rw [List.take_succ, List.getElem?_eq_getElem hlt]
          rfl
        by_cases hp : p items[i]
        · have hhook : hook_fxn_aborts (vetoHook p) .pre_remove [items.get ⟨i, hlt⟩] items ctrs
              = .ok true items (ctrs.bump .pre_remove) := by
            simp [hook_fxn_aborts, vetoHook, onlyHook, hp]
          rw [hhook]
          dsimp only
          rw [ih items (ctrs.bump .pre_remove) (i + 1) (by omega)]
          rw [hdrop, List.filter_cons_of_pos hp, List.countP_cons_of_pos p _ hp,
            Ctrs.bump_bumpN, htake, List.append_assoc]
          rfl
        · have hhook : hook_fxn_aborts (vetoHook p) .pre_remove [items.get ⟨i, hlt⟩] items ctrs
              = .ok false items ctrs := by
            simp [hook_fxn_aborts, vetoHook, onlyHook, hp]
          rw [hhook]
          dsimp only
          have hpost : call_post_hook_fxn (vetoHook p) .post_remove [items.get ⟨i, hlt⟩]
              (items.eraseIdx i) ctrs = .ok () (items.eraseIdx i) ctrs := by
            simp [call_post_hook_fxn, vetoHook, onlyHook]
          rw [hpost]
          dsimp only
          have herase : items.eraseIdx i = items.take i ++ items.drop (i + 1) :=
            List.eraseIdx_eq_take_drop_succ items i
          have hlen2 : (items.eraseIdx i).length - i ≤ fuel := by
            rw [herase]
            simp
            omega
          rw [ih (items.eraseIdx i) ctrs i hlen2, herase]
          have hti : (items.take i).length = i := by
            simp
            omega
          rw [List.take_left' hti, List.drop_left' hti, hdrop,
            List.filter_cons_of_neg hp, List.countP_cons_of_neg p _ hp]
      · rw [dif_neg hlt]
        have hlen : items.length ≤ i := by omega
        rw [List.drop_eq_nil_of_le hlen]
        simp [List.take_of_length_le hlen, Ctrs.bumpN]

/-- Under any hook table that never raises a genuine exception and whose
post-hooks never abort, the clear loop returns normally with a sublist of
the processed items. -/
theorem clearAux_sublist {α : Type} {h : Hooks α} (hne : NoErr h) (hnp : NoPostAbort h) :
    ∀ (fuel : Nat) (items : List α) (ctrs : Ctrs) (i : Nat),
      ∃ l c, clearAux h fuel items ctrs i = .ok () l c ∧ l.Sublist items := by
  intro fuel
  induction fuel with
  | zero => intro items ctrs i; exact ⟨items, ctrs, rfl, List.Sublist.refl items⟩
  | succ fuel ih =>
      intro items ctrs i
      unfold clearAux
      by_cases hlt : i < items.length
      · rw [dif_pos hlt]
        cases hn : h .pre_remove with
        | none =>
            simp only [hook_fxn_aborts, hn]
            cases hpn : h .post_remove with
            | none =>
                simp only [call_post_hook_fxn, hpn]
                obtain ⟨l, c, hrun, hsub⟩ := ih (items.eraseIdx i) ctrs i
                exact ⟨l, c, hrun, hsub.trans (List.eraseIdx_sublist items i)⟩
            | some g =>
                simp only [call_post_hook_fxn, hpn]
                cases hg : g (items.eraseIdx i) [items.get ⟨i, hlt⟩] with
                | ret =>
                    obtain ⟨l, c, hrun, hsub⟩ := ih (items.eraseIdx i) ctrs i
                    exact ⟨l, c, hrun, hsub.trans (List.eraseIdx_sublist items i)⟩
                | abort => exact absurd hg (hnp _ g (Or.inr (Or.inl rfl)) hpn _ _)
                | err => exact absurd hg (hne _ g hpn _ _)
        | some f =>
            simp only [hook_fxn_aborts, hn]
            cases hf : f items [items.get ⟨i, hlt⟩] with
            | err => exact absurd hf (hne _ f hn _ _)
            | abort =>
                obtain ⟨l, c, hrun, hsub⟩ := ih items (ctrs.bump .pre_remove) (i + 1)
                exact ⟨l, c, hrun, hsub⟩
            | ret =>
                cases hpn : h .post_remove with
                | none =>
                    simp only [call_post_hook_fxn, hpn]
                    obtain ⟨l, c, hrun, hsub⟩ := ih (items.eraseIdx i) ctrs i
                    exact ⟨l, c, hrun, hsub.trans (List.eraseIdx_sublist items i)⟩
                | some g =>
                    simp only [call_post_hook_fxn, hpn]
                    cases hg : g (items.eraseIdx i) [items.get ⟨i, hlt⟩] with
                    | ret =>
                        obtain ⟨l, c, hrun, hsub⟩ := ih (items.eraseIdx i) ctrs i
                        exact ⟨l, c, hrun, hsub.trans (List.eraseIdx_sublist items i)⟩
                    | abort => exact absurd hg (hnp _ g (Or.inr (Or.inl rfl)) hpn _ _)
                    | err => exact absurd hg (hne _ g hpn _ _)
      · rw [dif_neg hlt]
        exact ⟨items, ctrs, rfl, List.Sublist.refl items⟩

/-- C7: clear with a non-mutating pre_remove veto terminates and removes
exactly the non-vetoed elements, scanning from the front: with a per-item
veto predicate p the final contents are precisely the vetoed elements in
their original relative order (the filter by p), with one pre_remove abort
counted per retained element; and for any non-mutating hook table that
aborts or proceeds but never raises, clear returns normally with a sublist
of the original items (order preserved, only removals). -/
theorem clear_contract :
    (∀ (α : Type) (p : α → Bool) (items : List α) (ctrs : Ctrs),
      clear (vetoHook p) items ctrs
        = .ok () (items.filter p) (ctrs.bumpN .pre_remove (items.countP p))) ∧
    (∀ (α : Type) (h : Hooks α), NoErr h → NoPostAbort h →
      ∀ (items : List α) (ctrs : Ctrs),
        ∃ l c, clear h items ctrs = .ok () l c ∧ l.Sublist items) := by
  constructor
  · intro α p items ctrs
    unfold clear
    rw [clearAux_vetoHook p items.length items ctrs 0 (by omega)]
    rfl
  · intro α h hne hnp items ctrs
    exact clearAux_sublist hne hnp items.length items ctrs 0

/-- C7 witness: clearing [0, 1, 2, 3] with a veto on even items retains
[0, 2] in order with two aborts counted. -/
theorem clear_contract_witness :
    clear (vetoHook (fun x : Int => decide (x % 2 = 0))) [0, 1, 2, 3] Ctrs.zero
      = .ok () [0, 2] (Ctrs.zero.bumpN .pre_remove 2) := by
  rw [clear_contract.1 Int (fun x : Int => decide (x % 2 = 0)) [0, 1, 2, 3] Ctrs.zero]
  decide

/-- With an all-returning hook table the pre-hook invocation always
proceeds without touching anything. -/
theorem hook_fxn_aborts_allRet {α : Type} {h : Hooks α} (hh : AllRet h)
    (n : HookName) (args items : List α) (ctrs : Ctrs) :
    hook_fxn_aborts h n args items ctrs = .ok false items ctrs := by
  unfold hook_fxn_aborts
  cases hn : h n with
  | none => rfl
  | some f =>
      dsimp only
      rw [hh n f hn items args]

/-- With an all-returning hook table the post-hook invocation is a
no-op. -/
theorem call_post_hook_allRet {α : Type} {h : Hooks α} (hh : AllRet h)
    (n : HookName) (args items : List α) (ctrs : Ctrs) :
    call_post_hook_fxn h n args items ctrs = .ok () items ctrs := by
  unfold call_post_hook_fxn
  cases hn : h n with
  | none => rfl
  | some f =>
      dsimp only
      rw [hh n f hn items args]

/-- A nonnegative in-range index reads its element. -/
theorem pyGetItem_eq_get {α : Type} {l : List α} {i : Int} (h0 : 0 ≤ i)
    (hn : i.toNat < l.length) :
    pyGetItem l i = .ok (l.get ⟨i.toNat, hn⟩) := by
  unfold pyGetItem pyWrapIdx
  rw [if_neg (by omega : ¬ i < 0), if_pos (by omega), List.get?_eq_get hn]

/-- A negative in-range index reads the element at the wrapped position. -/
theorem pyGetItem_wrap_eq {α : Type} {l : List α} {i : Int} (hneg : i < 0)
    (hn : (i + (l.length : Int)).toNat < l.length) (h0 : 0 ≤ i + (l.length : Int)) :
    pyGetItem l i = .ok (l.get ⟨(i + (l.length : Int)).toNat, hn⟩) := by
  unfold pyGetItem pyWrapIdx
  rw [if_pos hneg, if_pos (by omega), List.get?_eq_get hn]

/-- A nonnegative in-range index writes its element. -/
theorem pySetItem_eq {α : Type} {l : List α} {i : Int} (x : α) (h0 : 0 ≤ i)
    (hn : i.toNat < l.length) :
    pySetItem l i x = .ok (l.set i.toNat x) := by
  unfold pySetItem pyWrapIdx
  rw [if_neg (by omega : ¬ i < 0), if_pos (by omega)]

/-- A nonnegative in-range index deletes its element. -/
theorem pyDelItem_eq {α : Type} {l : List α} {i : Int} (h0 : 0 ≤ i)
    (hn : i.toNat < l.length) :
    pyDelItem l i = .ok (l.eraseIdx i.toNat) := by
  unfold pyDelItem pyWrapIdx
  rw [if_neg (by omega : ¬ i < 0), if_pos (by omega)]

/-- A nonnegative insertion position up to the length splices in place. -/
theorem pyInsert_eq {α : Type} {l : List α} {i : Int} (x : α) (h0 : 0 ≤ i)
    (hle : i.toNat ≤ l.length) :
    pyInsert l i x = l.take i.toNat ++ x :: l.drop i.toNat := by
  unfold pyInsert pyInsertIdx pyWrapIdx
  rw [if_neg (by omega : ¬ i < 0), if_neg (by omega : ¬ i < 0), Nat.min_eq_left hle]

/-- The index list of a slice has exactly the counted length. -/
theorem sliceIdxAux_length (step : Int) :
    ∀ (n : Nat) (start : Int), (sliceIdxAux step n start).length = n := by
  intro n
  induction n with
  | zero => intro start; rfl
  | succ n ih => intro start; simp [sliceIdxAux, ih]

/-- A unit step counts the positive gap. -/
theorem sliceCount_one (start stop : Int) : sliceCount start stop 1 = (stop - start).toNat := by
  unfold sliceCount
  rw [if_pos (by omega : (0 : Int) < 1)]
  simp

/-- Every member of an ascending index run is bounded below by the start
and keeps a full step of room below the end of the run. -/
theorem mem_sliceIdxAux_pos {step : Int} (hs : 0 < step) :
    ∀ (n : Nat) (start i : Int), i ∈ sliceIdxAux step n start →
      start ≤ i ∧ i + step ≤ start + step * n := by
  intro n
  induction n with
  | zero => intro start i hi; cases hi
  | succ n ih =>
      intro start i hi
      rw [sliceIdxAux, List.mem_cons] at hi
      rcases hi with rfl | hi
      · constructor
        · omega
        · have hnn : 0 ≤ step * (n : Int) := by positivity
          have : step * ((n : Int) + 1) = step * n + step := by ring
          push_cast
          omega
      · obtain ⟨h1, h2⟩ := ih (start + step) i hi
        constructor
        · omega
        · have : step * ((n : Int) + 1) = step * n + step := by ring
          push_cast
          omega

/-- Every member of a descending index run is bounded above by the start
and keeps a full step of room above the end of the run. -/
theorem mem_sliceIdxAux_neg {step : Int} (hs : step < 0) :
    ∀ (n : Nat) (start i : Int), i ∈ sliceIdxAux step n start →
      i ≤ start ∧ start + step * n ≤ i + step := by
  intro n
  induction n with
  | zero => intro start i hi; cases hi
  | succ n ih =>
      intro start i hi
      rw [sliceIdxAux, List.mem_cons] at hi
      rcases hi with rfl | hi
      · constructor
        · omega
        · have hnn : step * (n : Int) ≤ 0 := by
            have : (0 : Int) ≤ (n : Int) := by positivity
            exact mul_nonpos_of_nonpos_of_nonneg (by omega) this
          have : step * ((n : Int) + 1) = step * n + step := by ring
          push_cast
          omega
      · obtain ⟨h1, h2⟩ := ih (start + step) i hi
        constructor
        · omega
        · have : step * ((n : Int) + 1) = step * n + step := by ring
          push_cast
          omega

/-- For a positive step the whole counted run stays below the stop. -/
theorem sliceCount_mul_le_pos {start stop step : Int} (hs : 0 < step)
    (hc : 1 ≤ sliceCount start stop step) :
    step * (sliceCount start stop step : Int) ≤ stop - start + step - 1 := by
  have h1 : sliceCount start stop step * step.toNat
      ≤ (stop - start).toNat + (step.toNat - 1) := by
    unfold sliceCount
    rw [if_pos hs]
    exact Nat.div_mul_le_self _ _
  have hgpos : 1 ≤ (stop - start).toNat := by
    by_contra hng
    have hc0 : sliceCount start stop step = 0 := by
      unfold sliceCount
      rw [if_pos hs]
      have hzero : (stop - start).toNat = 0 := by omega
      rw [hzero]
      exact Nat.div_eq_of_lt (by omega)
    omega
  have h2 : step * (sliceCount start stop step : Int)
      = ((sliceCount start stop step * step.toNat : Nat) : Int) := by
    push_cast
    rw [Int.toNat_of_nonneg (le_of_lt hs)]
    ring
  omega

/-- For a negative step the whole counted run stays above the stop. -/
theorem sliceCount_mul_le_neg {start stop step : Int} (hs : step < 0)
    (hc : 1 ≤ sliceCount start stop step) :
    stop - start + step + 1 ≤ step * (sliceCount start stop step : Int) := by
  have h1 : sliceCount start stop step * (-step).toNat
      ≤ (start - stop).toNat + ((-step).toNat - 1) := by
    unfold sliceCount
    rw [if_neg (by omega)]
    exact Nat.div_mul_le_self _ _
  have hgpos : 1 ≤ (start - stop).toNat := by
    by_contra hng
    have hc0 : sliceCount start stop step = 0 := by
      unfold sliceCount
      rw [if_neg (by omega)]
      have hzero : (start - stop).toNat = 0 := by omega
      rw [hzero]
      exact Nat.div_eq_of_lt (by omega)
    omega
  have h2 : step * (sliceCount start stop step : Int)
      = -((sliceCount start stop step * (-step).toNat : Nat) : Int) := by
    push_cast
    rw [Int.toNat_of_nonneg (by omega : (0 : Int) ≤ -step)]
    ring
  omega

/-- The normalized slice triple: the step is the raw step (1 for None) and
start and stop are clamped into the native window for the step sign. -/
theorem sliceIndices_ok_bounds {sl : PySlice} {length : Nat} {start stop step : Int}
    (h : sliceIndices sl length = .ok (start, stop, step)) :
    step = sl.step.getD 1 ∧ step ≠ 0 ∧
    (0 < step → 0 ≤ start ∧ start ≤ (length : Int) ∧ 0 ≤ stop ∧ stop ≤ (length : Int)) ∧
    (step < 0 → -1 ≤ start ∧ start ≤ (length : Int) - 1 ∧ -1 ≤ stop ∧ stop ≤ (length : Int) - 1) := by
  unfold sliceIndices at h
  by_cases hz : sl.step.getD 1 = 0
  · rw [if_pos hz] at h
    cases h
  · rw [if_neg hz] at h
    dsimp only at h
    injection h with htrip
    injection htrip with h1 h23
    injection h23 with h2 h3
    subst h1
    subst h2
    subst h3
    refine ⟨rfl, hz, ?_, ?_⟩
    · intro hpos
      rcases sl.start with _ | s <;> rcases sl.stop with _ | t <;> dsimp only <;>
        split_ifs <;> refine ⟨by omega, by omega, by omega, by omega⟩
    · intro hneg
      rcases sl.start with _ | s <;> rcases sl.stop with _ | t <;> dsimp only <;>
        split_ifs <;> refine ⟨by omega, by omega, by omega, by omega⟩

/-- Every index a well-formed slice denotes is in native range. -/
theorem mem_sliceIdxList_range {sl : PySlice} {len : Nat} {start stop step : Int}
    (h : sliceIndices sl len = .ok (start, stop, step)) :
    ∀ i ∈ sliceIdxList start stop step, 0 ≤ i ∧ i < (len : Int) := by
  obtain ⟨hstep, hz, hpos, hneg⟩ := sliceIndices_ok_bounds h
  intro i hi
  unfold sliceIdxList at hi
  have hcpos : 1 ≤ sliceCount start stop step := by
    by_contra hc
    have hc0 : sliceCount start stop step = 0 := by omega
    rw [hc0] at hi
    cases hi
  rcases lt_trichotomy step 0 with hs | hs | hs
  · obtain ⟨h1, h2⟩ := mem_sliceIdxAux_neg hs _ _ _ hi
    obtain ⟨b1, b2, b3, b4⟩ := hneg hs
    have hb := sliceCount_mul_le_neg hs hcpos
    constructor <;> omega
  · exact absurd hs hz
  · obtain ⟨h1, h2⟩ := mem_sliceIdxAux_pos hs _ _ _ hi
    obtain ⟨b1, b2, b3, b4⟩ := hpos hs
    have hb := sliceCount_mul_le_pos hs hcpos
    constructor <;> omega

/-- The materialized slice has one element per in-range index. -/
theorem filterMap_get_length {α : Type} (l : List α) :
    ∀ (idxs : List Int), (∀ i ∈ idxs, 0 ≤ i ∧ i < (l.length : Int)) →
      (idxs.filterMap (fun i => l.get? i.toNat)).length = idxs.length := by
  intro idxs
  induction idxs with
  | nil => intro _; rfl
  | cons i idxs ih =>
      intro hmem
      obtain ⟨h0, hl⟩ := hmem i (List.mem_cons_self i idxs)
      have hn : i.toNat < l.length := by omega
      rw [List.filterMap_cons, List.get?_eq_get hn]
      simp only [List.length_cons]
      rw [ih (fun j hj => hmem j (List.mem_cons_of_mem i hj))]

/-- The index list is as long as the count. -/
theorem sliceIdxList_length (start stop step : Int) :
    (sliceIdxList start stop step).length = sliceCount start stop step :=
  sliceIdxAux_length step _ start

/-- With an all-returning hook table, integer assignment at a nonnegative
in-range index is exactly the native set. -/
theorem setitemInt_allRet {α : Type} {h : Hooks α} (hh : AllRet h) {items : List α}
    {i : Int} (r : α) (ctrs : Ctrs) (h0 : 0 ≤ i) (hn : i.toNat < items.length) :
    setitemInt h i r items ctrs = .ok () (items.set i.toNat r) ctrs := by
  unfold setitemInt
  rw [verify_index_bounds_ok _ (by omega), pyGetItem_eq_get h0 hn]
  dsimp only
  rw [hook_fxn_aborts_allRet hh]
  dsimp only
  rw [pySetItem_eq r h0 hn]
  dsimp only
  rw [call_post_hook_allRet hh]

/-- With an all-returning hook table and in-range indices the pairwise
replacement loop performs exactly the pointwise sets (extended-slice
shape: all three lists equally long). -/
theorem replace_corresponding_allRet_set {α : Type} {h : Hooks α} (hh : AllRet h) :
    ∀ (idxs : List Int) (ls rs items : List α) (ctrs : Ctrs) (i0 : Int),
      idxs.length = ls.length → ls.length = rs.length →
      (∀ i ∈ idxs, 0 ≤ i ∧ i < (items.length : Int)) →
      ∃ last, replace_corresponding h idxs ls rs items ctrs i0
        = .ok last (setAll items (idxs.zip rs)) ctrs := by
  intro idxs
  induction idxs with
  | nil =>
      intro ls rs items ctrs i0 hl1 hl2 hmem
      refine ⟨i0, ?_⟩
      cases ls <;> cases rs <;> rfl
  | cons i idxs ih =>
      intro ls rs items ctrs i0 hl1 hl2 hmem
      cases ls with
      | nil => simp at hl1
      | cons a ls =>
          cases rs with
          | nil => simp [← hl1] at hl2
          | cons r rs =>
              obtain ⟨h0, hl⟩ := hmem i (List.mem_cons_self i idxs)
              have hn : i.toNat < items.length := by omega
              unfold replace_corresponding
              rw [setitemInt_allRet hh r ctrs h0 hn]
              dsimp only
              have hmem2 : ∀ j ∈ idxs, 0 ≤ j ∧ j < ((items.set i.toNat r).length : Int) := by
                intro j hj
                rw [List.length_set]
                exact hmem j (List.mem_cons_of_mem i hj)
              obtain ⟨last, hrec⟩ := ih ls rs (items.set i.toNat r) ctrs (i + 1)
                (by simpa using hl1) (by simpa using hl2) hmem2
              exact ⟨last, hrec⟩

/-- With an all-returning hook table the pairwise replacement loop along a
unit-step run replaces the consecutive segment with the replacement
prefix, returning the index just past the last replaced position. -/
theorem replace_corresponding_allRet_seq {α : Type} {h : Hooks α} (hh : AllRet h) :
    ∀ (g : Nat) (ls rs items : List α) (ctrs : Ctrs) (start : Int),
      ls.length = g → 0 ≤ start → start.toNat + g ≤ items.length →
      replace_corresponding h (sliceIdxAux 1 g start) ls rs items ctrs start
        = .ok (start + (min g rs.length : Nat))
            (items.take start.toNat ++ rs.take (min g rs.length)
              ++ items.drop (start.toNat + min g rs.length)) ctrs := by
  intro g
  induction g with
  | zero =>
      intro ls rs items ctrs start hls h0 hlen
      cases ls with
      | cons a as => simp at hls
      | nil =>
          simp only [sliceIdxAux, replace_corresponding, Nat.zero_min, List.take_zero,
            Nat.add_zero, List.append_nil, List.take_append_drop, Nat.cast_zero, Int.add_zero]
  | succ g ih =>
      intro ls rs items ctrs start hls h0 hlen
      cases ls with
      | nil => simp at hls
      | cons a ls =>
          cases rs with
          | nil =>
              simp only [sliceIdxAux, replace_corresponding, List.length_nil, Nat.min_zero,
                List.take_zero, Nat.add_zero, List.append_nil, List.take_append_drop,
                Nat.cast_zero, Int.add_zero]
          | cons r rs =>
              have hs : start.toNat < items.length := by omega
              unfold sliceIdxAux replace_corresponding
              rw [setitemInt_allRet hh r ctrs h0 hs]
              dsimp only
              have hset : items.set start.toNat r
                  = items.take start.toNat ++ r :: items.drop (start.toNat + 1) := by
                rw [List.set_eq_take_append_cons_drop, if_pos hs]
              have hlen2 : (start + 1).toNat + g ≤ (items.set start.toNat r).length := by
                rw [List.length_set]
                omega
              rw [ih ls rs (items.set start.toNat r) ctrs (start + 1) (by simpa using hls)
                (by omega) hlen2]
              have ht1 : (start + 1).toNat = start.toNat + 1 := by omega
              have htl : (items.take start.toNat).length = start.toNat := by
                simp
                omega
              have htake : (items.set start.toNat r).take (start.toNat + 1)
                  = items.take start.toNat ++ [r] := by
                rw [hset]
                have : start.toNat + 1 = (items.take start.toNat).length + 1 := by rw [htl]
                rw [this, List.take_append 1]
                rfl
              have hdrop : ∀ k : Nat, (items.set start.toNat r).drop (start.toNat + 1 + k)
                  = items.drop (start.toNat + 1 + k) := by
                intro k
                rw [hset]
                have h1 : start.toNat + 1 + k = (items.take start.toNat).length + (1 + k) := by
                  rw [htl]
                  omega
                rw [h1, List.drop_append (1 + k)]
                have h2 : (1 + k : Nat) = k + 1 := by omega
                rw [h2]
                have h3 : List.drop (k + 1) (r :: items.drop (start.toNat + 1))
                    = List.drop k (items.drop (start.toNat + 1)) := by rfl
                rw [h3, List.drop_drop]
                congr 1
                omega
              rw [ht1, htake, hdrop (min g rs.length)]
              have hmin : min (g + 1) (rs.length + 1) = min g rs.length + 1 :=
                Nat.succ_min_succ g rs.length
              simp only [List.length_cons, hmin, List.take_succ_cons, Nat.cast_add,
                Nat.cast_one, List.append_assoc, List.cons_append, List.nil_append]
              have e1 : start + 1 + ((g ⊓ rs.length : Nat) : Int)
                  = start + (((g ⊓ rs.length : Nat) : Int) + 1) := by ring
              have e2 : start.toNat + 1 + g ⊓ rs.length = start.toNat + (g ⊓ rs.length + 1) := by
                omega
              rw [e1, e2]

/-- With an all-returning hook table the unit-step removal loop deletes n
consecutive elements at a fixed nonnegative position. -/
theorem remove_remaining_allRet_one {α : Type} {h : Hooks α} (hh : AllRet h) :
    ∀ (n : Nat) (i : Int) (items : List α) (ctrs : Ctrs),
      0 ≤ i → i.toNat + n ≤ items.length →
      remove_remaining h 1 n i items ctrs
        = .ok () (items.take i.toNat ++ items.drop (i.toNat + n)) ctrs := by
  intro n
  induction n with
  | zero =>
      intro i items ctrs h0 hlen
      simp only [remove_remaining, Nat.add_zero, List.take_append_drop]
  | succ n ih =>
      intro i items ctrs h0 hlen
      have hn : i.toNat < items.length := by omega
      unfold remove_remaining
      rw [pyGetItem_eq_get h0 hn]
      dsimp only
      rw [hook_fxn_aborts_allRet hh]
      dsimp only
      rw [pyDelItem_eq h0 hn]
      dsimp only
      rw [call_post_hook_allRet hh]
      dsimp only
      rw [if_pos (by omega : (0 : Int) < 1)]
      have e1 : i + 1 - 1 = i := by ring
      rw [e1]
      have herase : items.eraseIdx i.toNat = items.take i.toNat ++ items.drop (i.toNat + 1) :=
        List.eraseIdx_eq_take_drop_succ items i.toNat
      have hlen2 : i.toNat + n ≤ (items.eraseIdx i.toNat).length := by
        rw [herase]
        simp
        omega
      rw [ih i (items.eraseIdx i.toNat) ctrs h0 hlen2, herase]
      have htl : (items.take i.toNat).length = i.toNat := by
        simp
        omega
      rw [List.take_left' htl]
      have hd : (items.take i.toNat ++ items.drop (i.toNat + 1)).drop (i.toNat + n)
          = items.drop (i.toNat + (n + 1)) := by
        have hsplit : i.toNat + n = (items.take i.toNat).length + n := by rw [htl]
        rw [hsplit, List.drop_append n, List.drop_drop]
        congr 1
        omega
      rw [hd]

/-- With an all-returning hook table the insertion loop over the negative
tail indices splices the last m replacement elements in, in order, at a
nonnegative position up to the length. -/
theorem add_remaining_allRet {α : Type} {h : Hooks α} (hh : AllRet h) (rs : List α) :
    ∀ (m : Nat) (i : Int) (items : List α) (ctrs : Ctrs),
      m ≤ rs.length → 0 ≤ i → i.toNat ≤ items.length →
      add_remaining h rs (sliceIdxAux 1 m (-(m : Int))) i items ctrs
        = .ok () (items.take i.toNat ++ rs.drop (rs.length - m) ++ items.drop i.toNat) ctrs := by
  intro m
  induction m with
  | zero =>
      intro i items ctrs hm h0 hlen
      simp only [sliceIdxAux, add_remaining, Nat.sub_zero, List.drop_length, List.append_nil,
        List.take_append_drop]
  | succ m ih =>
      intro i items ctrs hm h0 hlen
      unfold sliceIdxAux add_remaining
      have hneg : (-(((m : Nat) + 1 : Nat) : Int)) < 0 := by omega
      have hwn : (-(((m : Nat) + 1 : Nat) : Int) + (rs.length : Int)).toNat < rs.length := by
        push_cast
        omega
      rw [pyGetItem_wrap_eq hneg hwn (by omega)]
      dsimp only
      rw [hook_fxn_aborts_allRet hh]
      dsimp only
      rw [pyInsert_eq _ h0 hlen]
      rw [call_post_hook_allRet hh]
      dsimp only
      have hstart : (-(((m : Nat) + 1 : Nat) : Int) + 1) = -((m : Nat) : Int) := by
        push_cast
        ring
      rw [hstart]
      set x := rs.get ⟨(-(((m : Nat) + 1 : Nat) : Int) + (rs.length : Int)).toNat, hwn⟩ with hx
      have hlen2 : (i + 1).toNat
          ≤ (items.take i.toNat ++ x :: items.drop i.toNat).length := by
        simp
        omega
      rw [ih (i + 1) (items.take i.toNat ++ x :: items.drop i.toNat) ctrs (by omega)
        (by omega) hlen2]
      have htl : (items.take i.toNat).length = i.toNat := by
        simp
        omega
      have ht1 : (i + 1).toNat = i.toNat + 1 := by omega
      have htake : (items.take i.toNat ++ x :: items.drop i.toNat).take (i.toNat + 1)
          = items.take i.toNat ++ [x] := by
        have hsplit : i.toNat + 1 = (items.take i.toNat).length + 1 := by rw [htl]
        rw [hsplit, List.take_append 1]
        rfl
      have hdrop : (items.take i.toNat ++ x :: items.drop i.toNat).drop (i.toNat + 1)
          = items.drop i.toNat := by
        have hsplit : i.toNat + 1 = (items.take i.toNat).length + 1 := by rw [htl]
        rw [hsplit, List.drop_append 1]
        rfl
      rw [ht1, htake, hdrop]
      have hdridx : rs.length - m = (rs.length - (m + 1)) + 1 := by omega
      have hdrs : rs.drop (rs.length - (m + 1))
          = x :: rs.drop (rs.length - m) := by
        have hidx : rs.length - (m + 1) < rs.length := by omega
        rw [List.drop_eq_getElem_cons hidx, hdridx]
        have hieq : (-(((m : Nat) + 1 : Nat) : Int) + (rs.length : Int)).toNat
            = rs.length - (m + 1) := by
          push_cast
          omega
        rw [hx]
        congr 1
        simp only [List.get_eq_getElem]
        congr 1
        exact hieq.symm
      rw [hdrs]
      simp [List.append_assoc]

/-- With an all-returning hook table, unit-step slice assignment splices
the whole replacement between the normalized bounds, exactly like the
native splice. -/
theorem setitemSlice_allRet_step1 {α : Type} {h : Hooks α} (hh : AllRet h)
    {items repl : List α} {sl : PySlice} (ctrs : Ctrs) {start stop : Int}
    (hsi : sliceIndices sl items.length = .ok (start, stop, 1)) :
    setitemSlice h sl repl items ctrs
      = .ok () (items.take start.toNat ++ repl ++ items.drop (max start stop).toNat) ctrs := by
  obtain ⟨hstepdef, hz, hposb, hnegb⟩ := sliceIndices_ok_bounds hsi
  obtain ⟨b1, b2, b3, b4⟩ := hposb (by omega)
  have hmem := mem_sliceIdxList_range hsi
  have hgs : pyGetSlice items sl
      = .ok ((sliceIdxList start stop 1).filterMap (fun i => items.get? i.toNat)) := by
    unfold pyGetSlice
    rw [hsi]
  set ls := (sliceIdxList start stop 1).filterMap (fun i => items.get? i.toNat) with hls
  have hlslen : ls.length = (stop - start).toNat := by
    rw [hls, filterMap_get_length items _ hmem, sliceIdxList_length, sliceCount_one]
  have hver : verify_slices_are_valid sl ls repl = .ok () := by
    unfold verify_slices_are_valid
    cases hss : sl.step with
    | none => rfl
    | some s =>
        have hs1 : s = 1 := by
          rw [hss] at hstepdef
          simpa using hstepdef.symm
        subst hs1
        dsimp only
        rw [if_pos rfl]
  have hstep_or : stepOr1 sl = 1 := by
    unfold stepOr1
    cases hss : sl.step with
    | none => rfl
    | some s =>
        have hs1 : s = 1 := by
          rw [hss] at hstepdef
          simpa using hstepdef.symm
        subst hs1
        simp
  have hidx : sliceIdxList start stop 1 = sliceIdxAux 1 ls.length start := by
    unfold sliceIdxList
    rw [hlslen, sliceCount_one]
  have hglen : start.toNat + ls.length ≤ items.length := by
    rw [hlslen]
    omega
  have hmax : (max start stop).toNat = start.toNat + ls.length := by
    rw [hlslen]
    omega
  have htl : (items.take start.toNat).length = start.toNat := by
    simp
    omega
  unfold setitemSlice
  rw [hgs]
  dsimp only
  rw [hver]
  dsimp only
  rw [hsi]
  dsimp only
  rw [hidx, replace_corresponding_allRet_seq hh ls.length ls repl items ctrs start rfl b1 hglen]
  dsimp only
  rcases Nat.lt_trichotomy repl.length ls.length with hgr | hgr | hgr
  · -- more selected than supplied: remove the overflow
    rw [if_pos (by omega : (0 : Int) < (ls.length : Int) - (repl.length : Int))]
    rw [hstep_or]
    have hmin : min ls.length repl.length = repl.length := Nat.min_eq_right (le_of_lt hgr)
    rw [hmin, List.take_length]
    have hovn : (((ls.length : Int) - (repl.length : Int))).toNat = ls.length - repl.length := by
      omega
    rw [hovn]
    have hA : (items.take start.toNat ++ repl).length = start.toNat + repl.length := by
      rw [List.length_append, htl]
    have hsplit : items.take start.toNat ++ repl ++ items.drop (start.toNat + repl.length)
        = (items.take start.toNat ++ repl) ++ items.drop (start.toNat + repl.length) := by
      simp [List.append_assoc]
    rw [hsplit]
    have hitoNat : (start + (repl.length : Int)).toNat = start.toNat + repl.length := by omega
    rw [remove_remaining_allRet_one hh (ls.length - repl.length) (start + (repl.length : Int))
      ((items.take start.toNat ++ repl) ++ items.drop (start.toNat + repl.length)) ctrs
      (by omega) (by rw [hitoNat]; simp [hA]; omega)]
    rw [hitoNat]
    have htakeA : ((items.take start.toNat ++ repl) ++ items.drop (start.toNat + repl.length)).take
        (start.toNat + repl.length) = items.take start.toNat ++ repl := by
      rw [List.take_left' hA]
    have hdropA : ((items.take start.toNat ++ repl) ++ items.drop (start.toNat + repl.length)).drop
        (start.toNat + repl.length + (ls.length - repl.length))
        = items.drop (start.toNat + ls.length) := by
      have hre : start.toNat + repl.length + (ls.length - repl.length)
          = (items.take start.toNat ++ repl).length + (ls.length - repl.length) := by
        rw [hA]
      rw [hre, List.drop_append (ls.length - repl.length), List.drop_drop]
      congr 1
      omega
    rw [htakeA, hdropA, hmax, List.append_assoc]
  · -- equal sizes: pairwise replacement only
    rw [if_neg (by omega), if_neg (by omega)]
    have hmin : min ls.length repl.length = repl.length := by omega
    rw [hmin, List.take_length, hmax, hgr]
  · -- more supplied than selected: insert the remainder
    rw [if_neg (by omega)]
    rw [if_pos (by omega : ((ls.length : Int) - (repl.length : Int)) < 0)]
    have hmin : min ls.length repl.length = ls.length := Nat.min_eq_left (le_of_lt hgr)
    rw [hmin]
    have hm : (ls.length : Int) - (repl.length : Int) = -(((repl.length - ls.length : Nat)) : Int) := by
      omega
    have hcnt : sliceIdxList ((ls.length : Int) - (repl.length : Int)) 0 1
        = sliceIdxAux 1 (repl.length - ls.length) (-(((repl.length - ls.length : Nat)) : Int)) := by
      unfold sliceIdxList
      rw [hm, sliceCount_one]
      congr 2
      omega
    rw [hcnt]
    have hA : (items.take start.toNat ++ repl.take ls.length).length
        = start.toNat + ls.length := by
      rw [List.length_append, htl, List.length_take, Nat.min_eq_left (le_of_lt hgr)]
    have hsplit : items.take start.toNat ++ repl.take ls.length
          ++ items.drop (start.toNat + ls.length)
        = (items.take start.toNat ++ repl.take ls.length)
          ++ items.drop (start.toNat + ls.length) := by
      simp [List.append_assoc]
    rw [hsplit]
    have hitoNat : (start + (ls.length : Int)).toNat = start.toNat + ls.length := by omega
    have hlen1 : ((items.take start.toNat ++ repl.take ls.length)
        ++ items.drop (start.toNat + ls.length)).length = items.length := by
      rw [List.length_append, hA, List.length_drop]
      omega
    rw [add_remaining_allRet hh repl (repl.length - ls.length) (start + (ls.length : Int))
      ((items.take start.toNat ++ repl.take ls.length) ++ items.drop (start.toNat + ls.length))
      ctrs (by omega) (by omega) (by rw [hitoNat, hlen1]; omega)]
    rw [hitoNat]
    have htakeA : (((items.take start.toNat ++ repl.take ls.length))
        ++ items.drop (start.toNat + ls.length)).take (start.toNat + ls.length)
        = items.take start.toNat ++ repl.take ls.length := List.take_left' hA
    have hdropA : (((items.take start.toNat ++ repl.take ls.length))
        ++ items.drop (start.toNat + ls.length)).drop (start.toNat + ls.length)
        = items.drop (start.toNat + ls.length) := by
      have h0 : start.toNat + ls.length = (items.take start.toNat ++ repl.take ls.length).length + 0 := by
        rw [hA]
        omega
      rw [h0, List.drop_append 0, List.drop_zero]
    have hrd : repl.length - (repl.length - ls.length) = ls.length := by omega
    rw [htakeA, hdropA, hrd, hmax]
    simp [List.append_assoc, List.take_append_drop]

/-- For every hook table, an extended slice paired with a replacement of
the wrong length raises the shape-mismatch ValueError before anything
runs. -/
theorem setitemSlice_ext_mismatch {α : Type} (h : Hooks α)
    {items : List α} (repl : List α) {sl : PySlice} (ctrs : Ctrs) {start stop step : Int}
    (hsi : sliceIndices sl items.length = .ok (start, stop, step))
    (hne1 : step ≠ 1)
    (hlen : sliceCount start stop step ≠ repl.length) :
    setitemSlice h sl repl items ctrs
      = .err (.valueError ("attempt to assign sequence of size " ++ toString repl.length
          ++ " to extended slice of size " ++ toString (sliceCount start stop step))) items ctrs := by
  obtain ⟨hstepdef, hz, hposb, hnegb⟩ := sliceIndices_ok_bounds hsi
  have hmem := mem_sliceIdxList_range hsi
  have hgs : pyGetSlice items sl
      = .ok ((sliceIdxList start stop step).filterMap (fun i => items.get? i.toNat)) := by
    unfold pyGetSlice
    rw [hsi]
  set ls := (sliceIdxList start stop step).filterMap (fun i => items.get? i.toNat) with hls
  have hlslen : ls.length = sliceCount start stop step := by
    rw [hls, filterMap_get_length items _ hmem, sliceIdxList_length]
  have hslstep : sl.step = some step := by
    cases hss : sl.step with
    | none =>
        rw [hss] at hstepdef
        simp at hstepdef
        exact absurd hstepdef hne1
    | some s =>
        rw [hss] at hstepdef
        simp at hstepdef
        rw [hstepdef]
  have hver : verify_slices_are_valid sl ls repl
      = .error (.valueError ("attempt to assign sequence of size " ++ toString repl.length
          ++ " to extended slice of size " ++ toString (sliceCount start stop step))) := by
    unfold verify_slices_are_valid
    rw [hslstep]
    dsimp only
    rw [if_neg hne1, if_neg hz, if_pos (by omega), hlslen]
  unfold setitemSlice
  rw [hgs]
  dsimp only
  rw [hver]

/-- With an all-returning hook table, extended-slice assignment with a
matching replacement length performs exactly the native pointwise
assignment along the selected indices. -/
theorem setitemSlice_allRet_ext_eq {α : Type} {h : Hooks α} (hh : AllRet h)
    {items : List α} (repl : List α) {sl : PySlice} (ctrs : Ctrs) {start stop step : Int}
    (hsi : sliceIndices sl items.length = .ok (start, stop, step))
    (hne1 : step ≠ 1)
    (hlen : sliceCount start stop step = repl.length) :
    setitemSlice h sl repl items ctrs
      = .ok () (setAll items ((sliceIdxList start stop step).zip repl)) ctrs := by
  obtain ⟨hstepdef, hz, hposb, hnegb⟩ := sliceIndices_ok_bounds hsi
  have hmem := mem_sliceIdxList_range hsi
  have hgs : pyGetSlice items sl
      = .ok ((sliceIdxList start stop step).filterMap (fun i => items.get? i.toNat)) := by
    unfold pyGetSlice
    rw [hsi]
  set ls := (sliceIdxList start stop step).filterMap (fun i => items.get? i.toNat) with hls
  have hlslen : ls.length = sliceCount start stop step := by
    rw [hls, filterMap_get_length items _ hmem, sliceIdxList_length]
  have hver : verify_slices_are_valid sl ls repl = .ok () := by
    unfold verify_slices_are_valid
    cases hss : sl.step with
    | none => rfl
    | some s =>
        have hse : s = step := by
          rw [hss] at hstepdef
          simpa using hstepdef.symm
        subst hse
        dsimp only
        rw [if_neg hne1, if_neg hz, if_neg (by omega)]
  obtain ⟨last, hrc⟩ := replace_corresponding_allRet_set hh (sliceIdxList start stop step)
    ls repl items ctrs start (by rw [sliceIdxList_length]; omega) (by omega) hmem
  unfold setitemSlice
  rw [hgs]
  dsimp only
  rw [hver]
  dsimp only
  rw [hsi]
  dsimp only
  rw [hrc]
  dsimp only
  rw [if_neg (by omega), if_neg (by omega)]

/-- C6: slice assignment parity with the native reference.  For every
container, every slice and every replacement, when no registered hook does
anything (so nothing is vetoed), the hooked slice assignment returns
exactly the contents the native splice produces whenever the native
reference succeeds, and raises exactly the native error (zero-step
ValueError, or the extended-slice shape-mismatch ValueError with the same
sizes in the message) with the container untouched whenever the native
reference raises. -/
theorem slice_assignment_parity :
    ∀ (α : Type) (h : Hooks α), AllRet h →
    ∀ (items repl : List α) (sl : PySlice) (ctrs : Ctrs),
      (∀ l, nativeSliceAssign items sl repl = .ok l →
        setitemSlice h sl repl items ctrs = .ok () l ctrs) ∧
      (∀ e, nativeSliceAssign items sl repl = .error e →
        setitemSlice h sl repl items ctrs = .err e items ctrs) := by
  intro α h hh items repl sl ctrs
  rcases sliceIndices_cases sl items.length with ⟨⟨start, stop, step⟩, hsi⟩ | hsi
  · by_cases hstep1 : step = 1
    · subst hstep1
      have hnat : nativeSliceAssign items sl repl
          = .ok (items.take start.toNat ++ repl ++ items.drop (max start stop).toNat) := by
        unfold nativeSliceAssign
        rw [hsi]
        dsimp only
        rw [if_pos rfl]
      constructor
      · intro l hl
        rw [hnat] at hl
        injection hl with hl2
        subst hl2
        exact setitemSlice_allRet_step1 hh ctrs hsi
      · intro e he
        rw [hnat] at he
        cases he
    · by_cases hlen : sliceCount start stop step = repl.length
      · have hnat : nativeSliceAssign items sl repl
            = .ok (setAll items ((sliceIdxList start stop step).zip repl)) := by
          unfold nativeSliceAssign
          rw [hsi]
          dsimp only
          rw [if_neg hstep1]
          rw [if_neg (by rw [sliceIdxList_length]; omega)]
        constructor
        · intro l hl
          rw [hnat] at hl
          injection hl with hl2
          subst hl2
          exact setitemSlice_allRet_ext_eq hh repl ctrs hsi hstep1 hlen
        · intro e he
          rw [hnat] at he
          cases he
      · have hnat : nativeSliceAssign items sl repl
            = .error (.valueError ("attempt to assign sequence of size " ++ toString repl.length
                ++ " to extended slice of size " ++ toString (sliceCount start stop step))) := by
          unfold nativeSliceAssign
          rw [hsi]
          dsimp only
          rw [if_neg hstep1]
          rw [if_pos (by rw [sliceIdxList_length]; omega), sliceIdxList_length]
        constructor
        · intro l hl
          rw [hnat] at hl
          cases hl
        · intro e he
          rw [hnat] at he
          injection he with he2
          subst he2
          exact setitemSlice_ext_mismatch h repl ctrs hsi hstep1 hlen
  · have hnat : nativeSliceAssign items sl repl
        = .error (.valueError "slice step cannot be zero") := by
      unfold nativeSliceAssign
      rw [hsi]
    have hhook : setitemSlice h sl repl items ctrs
        = .err (.valueError "slice step cannot be zero") items ctrs := by
      unfold setitemSlice pyGetSlice
      rw [hsi]
    constructor
    · intro l hl
      rw [hnat] at hl
      cases hl
    · intro e he
      rw [hnat] at he
      injection he with he2
      subst he2
      exact hhook

/-- C6 witness: assigning [-4, -5, -6] to the slice [1:3] of the length-7
container agrees with the native splice. -/
theorem slice_assignment_parity_witness :
    setitemSlice (noHooks Int) (PySlice.mk (some 1) (some 3) none) [-4, -5, -6]
        [0, 1, 2, 3, 4, 5, 6] Ctrs.zero
      = .ok () [0, -4, -5, -6, 3, 4, 5, 6] Ctrs.zero :=
  (slice_assignment_parity Int (noHooks Int) (fun _ _ hsome => Option.noConfusion hsome)
    [0, 1, 2, 3, 4, 5, 6] [-4, -5, -6] (PySlice.mk (some 1) (some 3) none) Ctrs.zero).1
    [0, -4, -5, -6, 3, 4, 5, 6] (by rfl)

end Hookedup
